import Mathlib

/-!
Verification development for the pysmiles chemistry inference engine
(`pysmiles/smiles_helper.py`).

The molecular graph is embedded shallowly: an atom is a record of optional
attributes (mirroring the Python attribute dictionaries, where absence of a
key is semantically distinct from presence), a molecule is a list of keyed
atom records together with a list of attributed undirected edges.  Bond
orders are rationals (the source uses the float `1.5` for aromatic bonds,
all other orders are small integers, so rational arithmetic is exact).
Fallible source functions (those that can raise) return `Except`.
-/

/-- An atom record: each field models one optional entry of the node
attribute dictionary.  `none` means the key is absent. -/
structure Atom where
  element : Option String
  charge : Option Int
  hcount : Option Int
  aromatic : Option Bool
  isotope : Option Nat
  cls : Option Nat
  stereo : Option String
deriving DecidableEq, Repr

/-- The atom record with every attribute absent. -/
def emptyAtom : Atom := ⟨none, none, none, none, none, none, none⟩

/-- A molecule: node records keyed by natural numbers, and undirected edges
carrying an optional bond order (`none` models an absent 'order' key). -/
structure Molecule where
  nodes : List (Nat × Atom)
  edges : List (Nat × Nat × Option Rat)
deriving DecidableEq, Repr

/-- Look up the atom record stored at a node key (`mol.nodes[k]`). -/
def lookupNode (mol : Molecule) (k : Nat) : Option Atom :=
  (mol.nodes.find? (fun p => p.1 == k)).map (fun p => p.2)

/-- Total access to a node's attributes; well-formed call sites always have
the key present (networkx raises `KeyError` otherwise). -/
def atomOf (mol : Molecule) (k : Nat) : Atom :=
  (lookupNode mol k).getD emptyAtom

/-- The list of node keys of a molecule. -/
def keysOf (mol : Molecule) : List Nat :=
  mol.nodes.map (fun p => p.1)

/-- The edges incident to a node, as produced by `mol.edges(nbunch=k)`. -/
def incidentEdges (mol : Molecule) (k : Nat) : List (Nat × Nat × Option Rat) :=
  mol.edges.filter (fun e => e.1 == k || e.2.1 == k)

/-- The neighbors of a node (`mol[k]`), one entry per incident edge. -/
def neighbors (mol : Molecule) (k : Nat) : List Nat :=
  mol.edges.filterMap (fun e =>
    if e.1 == k then some e.2.1 else if e.2.1 == k then some e.1 else none)

/-- Whether an edge joins `u` and `v` (in either orientation). -/
def hasEdge (mol : Molecule) (u v : Nat) : Bool :=
  mol.edges.any (fun e => (e.1 == u && e.2.1 == v) || (e.1 == v && e.2.1 == u))

/-- The 'order' attribute of the edge joining `u` and `v`, defaulting to 1
(`mol.edges[u, v].get('order', 1)`). -/
def edgeOrderBetween (mol : Molecule) (u v : Nat) : Rat :=
  match mol.edges.find? (fun e => (e.1 == u && e.2.1 == v) || (e.1 == v && e.2.1 == u)) with
  | some e => e.2.2.getD 1
  | none => 1

/-- The largest node key (`max(mol)`); only meaningful on nonempty node sets,
matching the source call sites. -/
def maxKey (mol : Molecule) : Nat :=
  (keysOf mol).foldl max 0

/-- Source `_bonds`: the order-weighted (or, when `useOrder` is false,
unweighted) count of a node's explicit bonds. -/
def bonds_of (mol : Molecule) (k : Nat) (useOrder : Bool) : Rat :=
  if useOrder then
    ((incidentEdges mol k).map (fun e => e.2.2.getD 1)).sum
  else
    ((neighbors mol k).length : Rat)

/-- The bonding load used by `bonds_missing`: explicit bonds plus the node's
stored hydrogen count (0 if absent). -/
def loadOf (mol : Molecule) (k : Nat) (useOrder : Bool) : Rat :=
  bonds_of mol k useOrder + (((atomOf mol k).hcount.getD 0 : Int) : Rat)

/-- The orbital shell capacity table `ORBITAL_SIZES` of the source. -/
def ORBITAL_SIZES : List (List Nat) :=
  [[2], [2, 6], [2, 6], [2, 10, 6], [2, 10, 6], [2, 14, 10, 6]]

/-- The electron count table `ELECTRON_COUNTS`; unknown elements map to 0
(`ELECTRON_COUNTS.get(..., 0)`). -/
def ELECTRON_COUNTS : String → Nat
  | "H" => 1 | "B" => 5 | "C" => 6 | "N" => 7 | "O" => 8 | "F" => 9
  | "P" => 15 | "S" => 16 | "Cl" => 17 | "As" => 33 | "Se" => 34
  | "Br" => 35 | "I" => 53
  | _ => 0

/-- Python `str.capitalize` restricted to ASCII strings: first character
upper-cased, the rest lower-cased. -/
def pyCapitalize (s : String) : String :=
  match s.toList with
  | [] => ""
  | c :: cs => String.mk (c.toUpper :: cs.map Char.toLower)

/-- The failure modes of the source `valence` function: the explicit
`ValueError` raised when the shell table is exhausted with electrons left
over, and the `IndexError` raised by reading `ORBITAL_SIZES[idx+1]` past the
end of the table. -/
inductive VErr where
  | overflow
  | indexOutOfRange
deriving DecidableEq, Repr

/-- The shell-filling loop of `valence`: subtract full shells while they fit;
on `break` return the leftover electrons, the current shell, and the
remaining shells after it; falling off the end of the table is the
`ValueError` branch of the `for`/`else`. -/
def fillShells : Int → List (List Nat) → Except VErr (Int × List Nat × List (List Nat))
  | _, [] => .error .overflow
  | e, s :: rest =>
    if (s.sum : Int) ≤ e then fillShells (e - (s.sum : Int)) rest
    else .ok (e, s, rest)

/-- Source `valence`: admissible valences of an atom from its element and
charge by electron-shell filling.  The `assert electrons == 0` of the source
can never fire (the two `min` assignments always exhaust the leftover), so it
has no counterpart here. -/
def valence (atom : Atom) : Except VErr (List Int) := do
  let electrons : Int :=
    (ELECTRON_COUNTS (pyCapitalize (atom.element.getD "*")) : Int) - atom.charge.getD 0
  let (e, shell, rest) ← fillShells electrons ORBITAL_SIZES
  let half : Int := (shell.sum / 2 : Nat)
  let toAssign1 := min e half
  let singleElectrons := toAssign1
  let e1 := e - toAssign1
  let toAssign2 := min e1 half
  let electronPairs := toAssign2
  let singleElectrons := singleElectrons - toAssign2
  if rest.isEmpty then .error .indexOutOfRange
  else if 3 ≤ (rest.headD []).length then
    .ok ((List.range (electronPairs.toNat + 1)).map (fun (n : Nat) => singleElectrons + 2 * (n : Int)))
  else
    .ok [singleElectrons]

/-- Source `bonds_missing`: how far a node is under valence.  The trailing
`int(...)` of the source truncates toward zero; the value is nonnegative, so
it is the floor. -/
def bonds_missing (mol : Molecule) (k : Nat) (useOrder : Bool) : Except VErr Int := do
  let bonds : Rat := loadOf mol k useOrder
  let val ← valence (atomOf mol k)
  let vfil := val.filter (fun (v : Int) => decide (bonds ≤ (v : Rat)))
  let vfil := if vfil.isEmpty then [0] else vfil
  .ok ⌊max (((vfil.headD 0 : Int) : Rat) - bonds) 0⌋

/-- Source `has_default_h_count`: whether the stored hydrogen count equals
the count that valence completion would infer (hcount-less load). -/
def has_default_h_count (mol : Molecule) (k : Nat) (useOrder : Bool) : Except VErr Bool := do
  let bonds : Rat := bonds_of mol k useOrder
  let val ← valence (atomOf mol k)
  let vfil := val.filter (fun (v : Int) => decide (bonds ≤ (v : Rat)))
  let vfil := if vfil.isEmpty then [0] else vfil
  .ok (decide (max (((vfil.headD 0 : Int) : Rat) - bonds) 0
      = (((atomOf mol k).hcount.getD 0 : Int) : Rat)))

/-- Rewrite the attribute record stored at node `k` (the shape of every
attribute assignment `mol.nodes[k][...] = ...` of the source). -/
def mapNode (mol : Molecule) (k : Nat) (f : Atom → Atom) : Molecule :=
  ⟨mol.nodes.map (fun p => if p.1 == k then (p.1, f p.2) else p), mol.edges⟩

/-- An atom record with its hydrogen-count attribute replaced. -/
def Atom.withHcount (a : Atom) (h : Option Int) : Atom :=
  ⟨a.element, a.charge, h, a.aromatic, a.isotope, a.cls, a.stereo⟩

/-- Replace the stored hydrogen count of node `k` (attribute assignment
`mol.nodes[k]['hcount'] = v`). -/
def setHcount (mol : Molecule) (k : Nat) (v : Int) : Molecule :=
  mapNode mol k (fun a => a.withHcount (some v))

/-- One iteration of the `fill_valence` loop body for node `k`. -/
def fillStep (respectHcount : Bool) (mol : Molecule) (k : Nat) : Except VErr Molecule :=
  if (lookupNode mol k).isNone then .ok mol
  else
    let a := (lookupNode mol k).getD emptyAtom
    if a.hcount.isSome && respectHcount then .ok mol
    else do
      let mb ← bonds_missing mol k true
      let missing := max mb 0
      .ok (setHcount mol k (a.hcount.getD 0 + missing))

/-- The `fill_valence` loop over a list of node keys. -/
def fillList (respectHcount : Bool) : Molecule → List Nat → Except VErr Molecule
  | mol, [] => .ok mol
  | mol, k :: rest => do
    let mol' ← fillStep respectHcount mol k
    fillList respectHcount mol' rest

/-- One iteration of the edge loop of `increment_bond_orders`: reads both
endpoints' remaining budgets, skips sticky aromatic (order 1.5) bonds,
clamps the raised order at `maxBondOrder`, and deducts `edge_missing` (the
pre-clamp amount) from both budgets. -/
def incStep (maxBondOrder : Rat) (m : Nat → Int) :
    Nat × Nat × Option Rat → ((Nat → Int) × (Nat × Nat × Option Rat))
  | (u, v, ord) =>
    let currentOrder : Rat := ord.getD 1
    if currentOrder = 3 / 2 then (m, (u, v, ord))
    else
      let edgeMissing : Int := min (m u) (m v)
      let newOrder : Rat := min (currentOrder + (edgeMissing : Rat)) maxBondOrder
      let m1 := Function.update m u (m u - edgeMissing)
      let m2 := Function.update m1 v (m1 v - edgeMissing)
      (m2, (u, v, some newOrder))

/-- The edge loop of `increment_bond_orders` over the whole edge list. -/
def incFold (maxBondOrder : Rat) : (Nat → Int) → List (Nat × Nat × Option Rat) →
    ((Nat → Int) × List (Nat × Nat × Option Rat))
  | m, [] => (m, [])
  | m, e :: rest =>
    let (m1, e1) := incStep maxBondOrder m e
    let (m2, es) := incFold maxBondOrder m1 rest
    (m2, e1 :: es)

/-- The up-front snapshot of every node's missing-bond budget
(`missing_bonds[idx] = max(bonds_missing(molecule, idx), 0)`). -/
def initMissing (mol : Molecule) : Except VErr (Nat → Int) :=
  mol.nodes.foldlM (fun acc p => do
    let mb ← bonds_missing mol p.1 true
    pure (Function.update acc p.1 (max mb 0))) (fun _ => 0)

/-- Source `increment_bond_orders`, additionally exposing the final state of
the internal `missing_bonds` budget dictionary. -/
def increment_bond_orders_aux (mol : Molecule) (maxBondOrder : Rat) :
    Except VErr ((Nat → Int) × Molecule) := do
  let m0 ← initMissing mol
  let (m1, es) := incFold maxBondOrder m0 mol.edges
  .ok (m1, ⟨mol.nodes, es⟩)

/-- Source `increment_bond_orders`: raise bond orders toward each atom's
valence, in place. -/
def increment_bond_orders (mol : Molecule) (maxBondOrder : Rat) : Except VErr Molecule :=
  (increment_bond_orders_aux mol maxBondOrder).map (fun r => r.2)

/-- Source `fill_valence`: optionally saturate bond orders first, then give
every node (every node without the attribute, when `respectHcount`) its
missing hydrogen count. -/
def fill_valence (mol : Molecule) (respectHcount respectBondOrder : Bool)
    (maxBondOrder : Rat) : Except VErr Molecule := do
  let mol1 ← if respectBondOrder then .ok mol else increment_bond_orders mol maxBondOrder
  fillList respectHcount mol1 (keysOf mol1)

/-- Truthiness of `node.get('aromatic', 'False')` in the source
`mark_aromatic_edges`: a present boolean is itself, an absent attribute
yields the nonempty string `'False'`, which Python treats as TRUE. -/
def aromaticTruthy (a : Atom) : Bool :=
  a.aromatic.getD true

/-- Source `mark_aromatic_edges`: set edges between (truthy-)aromatic atoms
to order 1.5, and give every other order-less edge order 1. -/
def mark_aromatic_edges (mol : Molecule) : Molecule :=
  ⟨mol.nodes,
   mol.edges.map (fun e =>
     if aromaticTruthy (atomOf mol e.1) && aromaticTruthy (atomOf mol e.2.1) then
       (e.1, e.2.1, some (3 / 2 : Rat))
     else if e.2.2.isNone then (e.1, e.2.1, some (1 : Rat))
     else e)⟩

/-- Source `parse_hcount`: `''` is 0, `'H'` is 1, otherwise the digits after
the leading `H` (the regex guarantees those digits, so the `getD` fallback is
never reached on regex-matched input). -/
def parse_hcount (s : String) : Int :=
  if s = "" then 0
  else if s = "H" then 1
  else ((s.drop 1).toNat?.getD 0 : Nat)

/-- Source `parse_charge`: a sign followed by either digits or a run of
repeated signs (the sign character itself counts once). -/
def parse_charge (s : String) : Int :=
  match s.toList with
  | [] => 0
  | c0 :: rest =>
    let sign : Int := if c0 = '-' then -1 else 1
    match rest with
    | [] => sign * ((([c0].count c0 : Nat) : Int))
    | c1 :: _ =>
      if c1.isDigit then sign * (((String.mk rest).toNat?.getD 0 : Nat) : Int)
      else sign * (((c0 :: rest).count c0 : Nat) : Int)

/-- Python `str.islower` restricted to the ASCII element names produced by
the atom regex (pure letters or `*`). -/
def pyIsLower (s : String) : Bool :=
  !s.isEmpty && s.toList.all Char.isLower

/-- The named capture groups of a successful match of the bracket-atom regex
`ATOM_PATTERN`; `none` models a group that did not participate. -/
structure AtomGroups where
  isotope : Option Nat
  element : Option String
  stereo : Option String
  hcount : Option String
  charge : Option String
  cls : Option Nat
deriving DecidableEq, Repr

/-- The bracket-token branch of source `parse_atom`, starting from the match
groups (the regex itself is the external tokenizer's concern): apply the
defaults `{charge: 0, hcount: 0, aromatic: False}`, mark lowercase elements
aromatic, run the per-attribute parse helpers, drop a wildcard element, and
reject a hydrogen carrying hydrogens. -/
def parse_atom_bracket (g : AtomGroups) : Except String Atom :=
  let aromatic0 : Bool :=
    match g.element with
    | some e => pyIsLower e
    | none => false
  let element1 := g.element.map pyCapitalize
  let hcount1 : Int := match g.hcount with | some s => parse_hcount s | none => 0
  let charge1 : Int := match g.charge with | some s => parse_charge s | none => 0
  let element2 := if element1 = some "*" then none else element1
  if element2 = some "H" && hcount1 != 0 then
    .error "A hydrogen atom cannot have hydrogens"
  else
    .ok ⟨element2, some charge1, some hcount1, some aromatic0, g.isotope, g.cls, g.stereo⟩

/-- The fresh hydrogen record used by `add_explicit_hydrogens`: the result of
`parse_atom('[H]')` with its `hcount` entry deleted. -/
def hAtom : Atom := ⟨some "H", some 0, none, some false, none, none, none⟩

/-- Delete the `hcount` attribute of node `k` if present. -/
def delHcount (mol : Molecule) (k : Nat) : Molecule :=
  mapNode mol k (fun a => a.withHcount none)

/-- One iteration of the `add_explicit_hydrogens` loop: materialize node
`n`'s implicit hydrogens as fresh nodes keyed past the current maximum,
joined by order-1 bonds, then delete `n`'s `hcount`. -/
def addStep (mol : Molecule) (n : Nat) : Molecule :=
  if (lookupNode mol n).isNone then mol
  else
    let a := (lookupNode mol n).getD emptyAtom
    let h : Nat := (a.hcount.getD 0).toNat
    let mx := maxKey mol
    let ids := (List.range h).map (fun i => mx + 1 + i)
    delHcount
      ⟨mol.nodes ++ ids.map (fun j => (j, hAtom)),
       mol.edges ++ ids.map (fun j => (n, j, some (1 : Rat)))⟩
      n

/-- Source `add_explicit_hydrogens`: the loop runs over a snapshot
(`list(mol.nodes)`) of the original node keys. -/
def add_explicit_hydrogens (mol : Molecule) : Molecule :=
  (keysOf mol).foldl addStep mol

/-- The per-node test of `remove_explicit_hydrogens`: a simple explicit
hydrogen (`[H]`-identical, single neighbor, order-1 bond to a non-hydrogen).
Reads the current molecule, whose hydrogen counts may already have been
bumped — the test itself never looks at `hcount`. -/
def isSimpleH (mol : Molecule) (n : Nat) : Bool :=
  if (lookupNode mol n).isNone then false
  else
    let a := (lookupNode mol n).getD emptyAtom
    let nbs := neighbors mol n
    a.charge.getD 0 == 0 && a.element.getD "" == "H" && a.isotope == none
      && a.cls.getD 0 == 0 && nbs.length == 1
      && !((atomOf mol (nbs.headD 0)).element.getD "" == "H"
            || edgeOrderBetween mol n (nbs.headD 0) != 1)

/-- Increment the stored hydrogen count of node `k`
(`mol.nodes[k]['hcount'] = mol.nodes[k].get('hcount', 0) + 1`). -/
def bumpHcount (mol : Molecule) (k : Nat) : Molecule :=
  mapNode mol k (fun a => a.withHcount (some (a.hcount.getD 0 + 1)))

/-- One iteration of the scanning loop of `remove_explicit_hydrogens`:
a simple hydrogen is recorded for removal and its unique neighbor's count is
bumped. -/
def removeStep (st : Molecule × List Nat) (n : Nat) : Molecule × List Nat :=
  if isSimpleH st.1 n then
    (bumpHcount st.1 ((neighbors st.1 n).headD 0), st.2 ++ [n])
  else st

/-- Drop the listed nodes and their incident edges
(`mol.remove_nodes_from(to_remove)`). -/
def removeNodes (mol : Molecule) (rem : List Nat) : Molecule :=
  ⟨mol.nodes.filter (fun p => !(rem.contains p.1)),
   mol.edges.filter (fun e => !(rem.contains e.1) && !(rem.contains e.2.1))⟩

/-- The final loop of `remove_explicit_hydrogens`: give every node still
lacking an `hcount` the value 0. -/
def ensureHcounts (mol : Molecule) : Molecule :=
  ⟨mol.nodes.map (fun p =>
      if p.2.hcount == none then (p.1, p.2.withHcount (some 0)) else p),
   mol.edges⟩

/-- Source `remove_explicit_hydrogens`: scan all nodes, bump neighbors of the
simple hydrogens found, remove those hydrogens, then default missing hydrogen
counts to 0. -/
def remove_explicit_hydrogens (mol : Molecule) : Molecule :=
  let st := (keysOf mol).foldl removeStep (mol, [])
  ensureHcounts (removeNodes st.1 st.2)

/-- The eligibility test of `_prune_nodes`: wildcard elements always qualify,
other atoms qualify when they have at least one missing bond. -/
def eligibleNode (mol : Molecule) (v : Nat) : Except VErr Bool :=
  if (atomOf mol v).element.getD "*" == "*" then .ok true
  else do
    let mb ← bonds_missing mol v true
    .ok (decide (0 < mb))

/-- The filtering loop of `_prune_nodes`: keep the nodes whose eligibility
test succeeds and is positive, in iteration order. -/
def filterE (f : Nat → Except VErr Bool) : List Nat → Except VErr (List Nat)
  | [] => .ok []
  | x :: xs => do
    let b ← f x
    let rest ← filterE f xs
    .ok (if b then x :: rest else rest)

/-- The node set of the delocalization graph: source `_prune_nodes` applied
to all nodes (eligibility checks may raise through `bonds_missing`). -/
def prunedNodes (mol : Molecule) : Except VErr (List Nat) :=
  filterE (eligibleNode mol) (keysOf mol)

/-- One breadth step of component discovery inside the node subset `S` of the
delocalization graph: every member of `S` already reached or adjacent to a
reached node. -/
def growStep (mol : Molecule) (S cur : List Nat) : List Nat :=
  S.filter (fun w => cur.contains w || cur.any (fun x => hasEdge mol x w))

/-- Fueled saturation of `growStep`. -/
def compAux (mol : Molecule) (S : List Nat) : Nat → List Nat → List Nat
  | 0, cur => cur
  | n + 1, cur => compAux mol S n (growStep mol S cur)

/-- The connected component of `v` in the subgraph of `mol` induced on `S`
(`nx.connected_components` yields exactly these sets); `S.length` breadth
steps always reach saturation. -/
def componentOf (mol : Molecule) (S : List Nat) (v : Nat) : List Nat :=
  compAux mol S S.length [v]

/-- Edge-validity of a candidate matching on the subgraph induced on `S`:
every pair joins two distinct members of `S` that are adjacent in `mol`. -/
def matchEdgesOk (mol : Molecule) (S : List Nat) (M : List (Nat × Nat)) : Bool :=
  M.all (fun p => S.contains p.1 && S.contains p.2 && p.1 != p.2 && hasEdge mol p.1 p.2)

/-- A matching on the subgraph induced on `S`: valid edges, no two of which
share an endpoint. -/
def IsMatchingOn (mol : Molecule) (S : List Nat) (M : List (Nat × Nat)) : Prop :=
  matchEdgesOk mol S M = true ∧
    M.Pairwise (fun p q => p.1 ≠ q.1 ∧ p.1 ≠ q.2 ∧ p.2 ≠ q.1 ∧ p.2 ≠ q.2)

instance (mol : Molecule) (S : List Nat) (M : List (Nat × Nat)) :
    Decidable (IsMatchingOn mol S M) := by
  unfold IsMatchingOn; infer_instance

/-- A perfect matching additionally covers every node of `S`
(`nx.is_perfect_matching`). -/
def IsPerfectMatchingOn (mol : Molecule) (S : List Nat) (M : List (Nat × Nat)) : Prop :=
  IsMatchingOn mol S M ∧ ∀ w ∈ S, ∃ p ∈ M, w = p.1 ∨ w = p.2

instance (mol : Molecule) (S : List Nat) (M : List (Nat × Nat)) :
    Decidable (IsPerfectMatchingOn mol S M) := by
  unfold IsPerfectMatchingOn; infer_instance

/-- A maximum-cardinality matching on the subgraph induced on `S`; with the
uniform edge weights of these graphs this is what `nx.max_weight_matching`
returns. -/
def IsMaxMatchingOn (mol : Molecule) (S : List Nat) (M : List (Nat × Nat)) : Prop :=
  IsMatchingOn mol S M ∧ ∀ M', IsMatchingOn mol S M' → M'.length ≤ M.length

/-- Existence of a perfect matching on the subgraph induced on `S`. -/
def HasPerfectMatchingOn (mol : Molecule) (S : List Nat) : Prop :=
  ∃ M, IsPerfectMatchingOn mol S M

/-- The kekulization-failure test of source `mark_aromatic_atoms`: some
connected component of the delocalization graph, with the maximum matching
`chooseM` computed for it (the `nx.max_weight_matching` call), fails the
perfect-matching check and triggers the `SyntaxError`.  The matching routine
is an external collaborator, so it enters as a parameter. -/
def markAromaticAtomsRaises (mol : Molecule) (chooseM : List Nat → List (Nat × Nat)) :
    Except VErr Bool := do
  let P ← prunedNodes mol
  .ok (P.any (fun v =>
    !(decide (IsPerfectMatchingOn mol (componentOf mol P v) (chooseM (componentOf mol P v))))))

/-- The admissible-valence minimum named by the specification: the least
valence at least as large as the load, with the `{0}` fallback. -/
def minAdmissible (vals : List Int) (load : Rat) : Rat :=
  match vals.filter (fun (v : Int) => decide (load ≤ (v : Rat))) with
  | [] => 0
  | x :: xs => ((xs.foldl min x : Int) : Rat)

/-- The supported elements of the electron-count table. -/
def supportedElements : List String :=
  ["H", "B", "C", "N", "O", "F", "P", "S", "Cl", "As", "Se", "Br", "I"]

theorem find?_keyed_map (l : List (Nat × Atom)) (k j : Nat) (f : Atom → Atom) :
    (l.map (fun p => if p.1 == k then (p.1, f p.2) else p)).find? (fun p => p.1 == j)
      = if k = j then (l.find? (fun p => p.1 == j)).map (fun p => (p.1, f p.2))
        else l.find? (fun p => p.1 == j) := by
  induction l with
  | nil => by_cases hkj : k = j <;> simp [hkj]
  | cons p l ih =>
    have hfst : (if p.1 == k then (p.1, f p.2) else p).1 = p.1 := by
      by_cases hpk : p.1 = k <;> simp [hpk]
    by_cases hpj : p.1 = j
    · rw [List.map_cons, List.find?_cons_of_pos, List.find?_cons_of_pos]
      · by_cases hpk : p.1 = k
        · have hkj : k = j := by rw [← hpk, hpj]
          simp [hkj, hpk]
        · have hkj : ¬(k = j) := by
            intro hkj; exact hpk (by rw [hpj, hkj])
          simp [hkj, hpk]
      · simp [hpj]
      · rw [hfst]; simp [hpj]
    · rw [List.map_cons, List.find?_cons_of_neg, List.find?_cons_of_neg]
      · by_cases hkj : k = j <;> simp only [hkj, if_true, if_false] at ih ⊢ <;> rw [ih]
      · simp [hpj]
      · rw [hfst]; simp [hpj]

theorem lookupNode_mapNode_ne (mol : Molecule) (k : Nat) (f : Atom → Atom) (j : Nat)
    (h : j ≠ k) : lookupNode (mapNode mol k f) j = lookupNode mol j := by
  unfold lookupNode mapNode
  simp only [find?_keyed_map, if_neg (Ne.symm h)]

theorem lookupNode_mapNode_eq (mol : Molecule) (k : Nat) (f : Atom → Atom) :
    lookupNode (mapNode mol k f) k = (lookupNode mol k).map f := by
  unfold lookupNode mapNode
  rw [find?_keyed_map, if_pos rfl]
  cases List.find? (fun p => p.1 == k) mol.nodes <;> rfl

theorem mapNode_edges (mol : Molecule) (k : Nat) (f : Atom → Atom) :
    (mapNode mol k f).edges = mol.edges := rfl

theorem keysOf_mapNode (mol : Molecule) (k : Nat) (f : Atom → Atom) :
    keysOf (mapNode mol k f) = keysOf mol := by
  unfold keysOf mapNode
  simp only [List.map_map]
  apply List.map_congr_left
  intro p _
  by_cases hpk : p.1 = k <;> simp [hpk]

theorem lookupNode_mem_keys (mol : Molecule) (k : Nat) (a : Atom)
    (h : lookupNode mol k = some a) : k ∈ keysOf mol := by
  unfold lookupNode at h
  obtain ⟨p, hp, hep⟩ := Option.map_eq_some'.mp h
  have hmem := List.mem_of_find?_eq_some hp
  have hkey := List.find?_some hp
  simp only [beq_iff_eq] at hkey
  subst hkey
  exact List.mem_map_of_mem (fun p => p.1) hmem

theorem lookupNode_eq_none_of_not_mem (mol : Molecule) (k : Nat)
    (h : k ∉ keysOf mol) : lookupNode mol k = none := by
  unfold lookupNode
  rw [Option.map_eq_none', List.find?_eq_none]
  intro p hp
  simp only [beq_iff_eq]
  intro hpk
  exact h (hpk ▸ List.mem_map_of_mem (fun p => p.1) hp)

instance {e a : Type} [DecidableEq e] [DecidableEq a] : DecidableEq (Except e a)
  | .ok x, .ok y => if h : x = y then .isTrue (by rw [h]) else .isFalse (by simp [h])
  | .ok _, .error _ => .isFalse (by simp)
  | .error _, .ok _ => .isFalse (by simp)
  | .error x, .error y => if h : x = y then .isTrue (by rw [h]) else .isFalse (by simp [h])

/-- The iodide-like atom `{element: I, charge: -1}` with 54 effective
electrons: exactly the first five shells. -/
def iodideAtom : Atom := ⟨some "I", some (-1), none, none, none, none, none⟩

/-- An iodine atom with effective electron count 93, past the whole shell
table. -/
def overfullAtom : Atom := ⟨some "I", some (-40), none, none, none, none, none⟩

/-- C10: an effective electron count that exactly fills the first five
shells makes `valence` read the shell after the last one and fail with the
index error, which is a different failure from the modeling-overflow error,
itself raised only when the whole table is exhausted with electrons still
unassigned. -/
theorem valence_shell_index_error :
    valence iodideAtom = .error .indexOutOfRange ∧
    valence overfullAtom = .error .overflow ∧
    VErr.indexOutOfRange ≠ VErr.overflow := by
  refine ⟨by decide, by decide, by decide⟩

/-- A molecule of two attribute-less atoms joined by an order-less bond. -/
def bareMol : Molecule := ⟨[(0, emptyAtom), (1, emptyAtom)], [(0, 1, none)]⟩

/-- C2: both endpoints of the only bond of `bareMol` lack the 'aromatic'
attribute, yet `mark_aromatic_edges` marks the bond aromatic (order 1.5)
instead of defaulting it to order 1: the source reads
`node.get('aromatic', 'False')`, and the string `'False'` is truthy. -/
theorem mark_aromatic_edges_absent_attribute_bug :
    (atomOf bareMol 0).aromatic = none ∧
    (atomOf bareMol 1).aromatic = none ∧
    mark_aromatic_edges bareMol = ⟨bareMol.nodes, [(0, 1, some (3 / 2 : Rat))]⟩ := by
  refine ⟨by decide, by decide, by rfl⟩

theorem fillShells_ok_facts : ∀ (L : List (List Nat)) (e e' : Int) (s : List Nat)
    (rest : List (List Nat)), fillShells e L = .ok (e', s, rest) →
    (0 ≤ e → 0 ≤ e') ∧ e' < (s.sum : Int) ∧ s ∈ L ∧ rest.IsSuffix L := by
  intro L
  induction L with
  | nil => intro e e' s rest h; simp [fillShells] at h
  | cons s0 L' ih =>
    intro e e' s rest h
    unfold fillShells at h
    by_cases hle : ((s0.sum : Int) ≤ e)
    · rw [if_pos hle] at h
      obtain ⟨h1, h2, h3, h4⟩ := ih (e - (s0.sum : Int)) e' s rest h
      refine ⟨fun he => h1 (by omega), h2, List.mem_cons_of_mem _ h3, h4.trans (List.suffix_cons s0 L')⟩
    · rw [if_neg hle] at h
      simp only [Except.ok.injEq, Prod.mk.injEq] at h
      obtain ⟨he, hs, hr⟩ := h
      subst he; subst hs; subst hr
      exact ⟨fun he => he, by omega, List.mem_cons_self s0 L', List.suffix_cons s0 L'⟩

theorem valence_ok_facts (a : Atom) (l : List Int) (hv : valence a = .ok l) :
    l ≠ [] ∧ l.Pairwise (· < ·) ∧
      (0 ≤ (ELECTRON_COUNTS (pyCapitalize (a.element.getD "*")) : Int) - a.charge.getD 0 →
        ∀ x ∈ l, 0 ≤ x) := by
  unfold valence at hv
  simp only [Bind.bind, Except.bind] at hv
  cases hf : fillShells
      ((ELECTRON_COUNTS (pyCapitalize (a.element.getD "*")) : Int) - a.charge.getD 0)
      ORBITAL_SIZES with
  | error err => rw [hf] at hv; simp at hv
  | ok t =>
    obtain ⟨e, s, rest⟩ := t
    rw [hf] at hv
    simp only at hv
    obtain ⟨he0, helt, hmem, -⟩ := fillShells_ok_facts ORBITAL_SIZES _ e s rest hf
    have heven : Even s.sum := by
      have hall : ∀ t ∈ ORBITAL_SIZES, Even t.sum := by decide
      exact hall s hmem
    have h2half : (s.sum : Int) = 2 * ((s.sum / 2 : Nat) : Int) := by
      obtain ⟨m, hm⟩ := heven
      have : s.sum / 2 = m := by omega
      rw [this, hm]; push_cast; ring
    set H : Int := ((s.sum / 2 : Nat) : Int) with hH
    have hH0 : 0 ≤ H := by positivity
    cases rest with
    | nil => simp [List.isEmpty] at hv
    | cons next rs =>
      simp only [List.isEmpty_cons, Bool.false_eq_true, if_false, List.headD_cons] at hv
      have harith : 0 ≤ min (e - min e H) H ∧
          (0 ≤ e → 0 ≤ min e H - min (e - min e H) H) := by
        constructor
        · rcases le_total e H with h1 | h1
          · rcases le_total (e - min e H) H with h2 | h2 <;> omega
          · rcases le_total (e - min e H) H with h2 | h2 <;> omega
        · intro he
          rcases le_total e H with h1 | h1
          · rcases le_total (e - min e H) H with h2 | h2 <;> omega
          · rcases le_total (e - min e H) H with h2 | h2 <;> omega
      by_cases hlen : 3 ≤ next.length
      · rw [if_pos hlen] at hv
        simp only [Except.ok.injEq] at hv
        subst hv
        refine ⟨?_, ?_, ?_⟩
        · simp
        · rw [List.pairwise_map]
          exact (List.pairwise_lt_range _).imp (fun h => by omega)
        · intro he x hx
          obtain ⟨n, hn, hx⟩ := List.mem_map.mp hx
          have := harith.2 (he0 he)
          omega
      · rw [if_neg hlen] at hv
        simp only [Except.ok.injEq] at hv
        subst hv
        refine ⟨by simp, by simp, ?_⟩
        intro he x hx
        simp only [List.mem_singleton] at hx
        have := harith.2 (he0 he)
        omega

/-- C6 (amended): for every supported element and every integer charge not
exceeding the element's electron count (so the effective electron count is
nonnegative), whenever `valence` succeeds its result is a non-empty strictly
ascending list of non-negative integers.  (For charges beyond the electron
count the code silently returns negative valences.) -/
theorem valence_supported_ascending (e : String) (he : e ∈ supportedElements) (c : Int)
    (hc : c ≤ (ELECTRON_COUNTS e : Int)) (l : List Int)
    (hv : valence ⟨some e, some c, none, none, none, none, none⟩ = .ok l) :
    l ≠ [] ∧ l.Pairwise (· < ·) ∧ ∀ x ∈ l, 0 ≤ x := by
  obtain ⟨h1, h2, h3⟩ := valence_ok_facts _ l hv
  refine ⟨h1, h2, h3 ?_⟩
  have hcap : pyCapitalize e = e := by fin_cases he <;> decide
  simp only [Option.getD_some, hcap]
  omega

theorem valence_supported_ascending_witness :
    ("C" ∈ supportedElements ∧ (0 : Int) ≤ (ELECTRON_COUNTS "C" : Int)) ∧
    ([(4 : Int)] ≠ [] ∧ [(4 : Int)].Pairwise (· < ·) ∧ ∀ x ∈ [(4 : Int)], 0 ≤ x) :=
  ⟨⟨by decide, by decide⟩,
    valence_supported_ascending "C" (by decide) 0 (by decide) [4] (by decide)⟩

/-- C6 counterexample: the charge +2 on hydrogen is accepted (no error is
raised), yet the returned valence list contains the negative value -1. -/
theorem valence_overcharged_negative :
    valence ⟨some "H", some 2, none, none, none, none, none⟩ = .ok [-1] ∧ (-1 : Int) < 0 :=
  ⟨by decide, by decide⟩

theorem bonds_missing_eval (mol : Molecule) (k : Nat) (u : Bool) (vals : List Int) (L : Rat)
    (hval : valence (atomOf mol k) = .ok vals) (hload : loadOf mol k u = L) :
    bonds_missing mol k u = .ok ⌊max ((((if (vals.filter (fun (v : Int) => decide (L ≤ (v : Rat)))).isEmpty
        then [0] else vals.filter (fun (v : Int) => decide (L ≤ (v : Rat)))).headD 0 : Int) : Rat) - L) 0⌋ := by
  unfold bonds_missing
  rw [hload, hval]
  rfl

theorem foldl_min_of_le (x : Int) (xs : List Int) (h : ∀ y ∈ xs, x ≤ y) :
    xs.foldl min x = x := by
  induction xs with
  | nil => rfl
  | cons y ys ih =>
    rw [List.foldl_cons, min_eq_left (h y (List.mem_cons_self y ys))]
    exact ih fun z hz => h z (List.mem_cons_of_mem y hz)

theorem minAdmissible_eq_head (vals : List Int) (load : Rat) (hs : vals.Pairwise (· < ·)) :
    minAdmissible vals load =
      (((if (vals.filter (fun (v : Int) => decide (load ≤ (v : Rat)))).isEmpty then [0]
         else vals.filter (fun (v : Int) => decide (load ≤ (v : Rat)))).headD 0 : Int) : Rat) := by
  unfold minAdmissible
  cases hfil : vals.filter (fun (v : Int) => decide (load ≤ (v : Rat))) with
  | nil => simp
  | cons x xs =>
    have hsf := hs.filter (fun (v : Int) => decide (load ≤ (v : Rat)))
    rw [hfil] at hsf
    have hle : ∀ y ∈ xs, x ≤ y := fun y hy => le_of_lt (List.rel_of_pairwise_cons hsf hy)
    simp [foldl_min_of_le x xs hle]

/-- C5 (amended): `bonds_missing` returns the FLOOR of
`max(min(admissible) − load, 0)` (the trailing `int()` truncates fractional
loads arising from aromatic 1.5-order bonds), it is nonnegative, and
over-bonded input only flattens the result to 0 instead of raising. -/
theorem bonds_missing_floor_formula (mol : Molecule) (k : Nat) (u : Bool) (vals : List Int)
    (hval : valence (atomOf mol k) = .ok vals) :
    bonds_missing mol k u
        = .ok ⌊max (minAdmissible vals (loadOf mol k u) - loadOf mol k u) 0⌋ ∧
    ∀ r, bonds_missing mol k u = .ok r → 0 ≤ r := by
  have hb := bonds_missing_eval mol k u vals (loadOf mol k u) hval rfl
  constructor
  · rw [hb, minAdmissible_eq_head vals _ (valence_ok_facts _ _ hval).2.1]
  · intro r hr
    rw [hb] at hr
    simp only [Except.ok.injEq] at hr
    subst hr
    exact Int.floor_nonneg.mpr (le_max_right _ _)

/-- A carbon atom record with the given stored hydrogen count. -/
def carbonAtom (h : Option Int) : Atom := ⟨some "C", some 0, h, some false, none, none, none⟩

/-- Two carbons joined by a double bond, both with hcount 0: each misses two
bonds. -/
def doubleBondMol : Molecule :=
  ⟨[(0, carbonAtom (some 0)), (1, carbonAtom (some 0))], [(0, 1, some 2)]⟩

theorem bonds_missing_floor_formula_witness :
    bonds_missing doubleBondMol 0 true
        = .ok ⌊max (minAdmissible [4] (loadOf doubleBondMol 0 true) - loadOf doubleBondMol 0 true) 0⌋ ∧
    ∀ r, bonds_missing doubleBondMol 0 true = .ok r → 0 ≤ r :=
  bonds_missing_floor_formula doubleBondMol 0 true [4] (by decide)

/-- Two carbons joined by a single aromatic (1.5) bond, both with hcount 0:
the load 1.5 is fractional. -/
def aromaticPairMol : Molecule :=
  ⟨[(0, carbonAtom (some 0)), (1, carbonAtom (some 0))], [(0, 1, some (3 / 2 : Rat))]⟩

/-- C5 counterexample: on a fractional load the claimed exact formula gives
5/2, but the code returns the integer 2. -/
theorem bonds_missing_fractional_counterexample :
    bonds_missing aromaticPairMol 0 true = .ok 2 ∧
    max (minAdmissible [4] (loadOf aromaticPairMol 0 true) - loadOf aromaticPairMol 0 true) 0
      = 5 / 2 ∧
    ((2 : Rat) ≠ 5 / 2) := by
  have hval : valence (atomOf aromaticPairMol 0) = .ok [4] := by decide
  have hload : loadOf aromaticPairMol 0 true = 3 / 2 := by
    norm_num [loadOf, bonds_of, incidentEdges, atomOf, lookupNode, aromaticPairMol, carbonAtom,
      List.filter]
  refine ⟨?_, ?_, by norm_num⟩
  · rw [bonds_missing_eval _ 0 true [4] (3 / 2) hval hload]
    norm_num [List.filter]
  · rw [hload]
    norm_num [minAdmissible, List.filter]

/-- C1 (amended): for every edge whose current order is not 1.5, the edge
step of `increment_bond_orders` assigns the new order
`min(current_order + min(missing[u], missing[v]), max_bond_order)`, and the
amount deducted from both endpoints' remaining budgets is the pre-clamp
amount `min(missing[u], missing[v])` itself — not the applied increase
`new_order - current_order`, which is smaller whenever the clamp by
`max_bond_order` is active. -/
theorem increment_bond_orders_step (maxBO : Rat) (m : Nat → Int) (u v : Nat) (ord : Option Rat)
    (hord : ord.getD 1 ≠ 3 / 2) (huv : u ≠ v) :
    (incStep maxBO m (u, v, ord)).2
        = (u, v, some (min (ord.getD 1 + ((min (m u) (m v) : Int) : Rat)) maxBO)) ∧
    (incStep maxBO m (u, v, ord)).1 u = m u - min (m u) (m v) ∧
    (incStep maxBO m (u, v, ord)).1 v = m v - min (m u) (m v) ∧
    ∀ w, w ≠ u → w ≠ v → (incStep maxBO m (u, v, ord)).1 w = m w := by
  simp only [incStep]
  rw [if_neg hord]
  refine ⟨rfl, ?_, ?_, ?_⟩
  · simp [Function.update_apply, huv, Ne.symm huv]
  · simp [Function.update_apply, Ne.symm huv]
  · intro w hwu hwv
    simp [Function.update_apply, hwu, hwv]

theorem increment_bond_orders_step_witness :
    (incStep 3 (fun _ => 2) (0, 1, some 2)).2
        = (0, 1, some (min ((some (2 : Rat)).getD 1 + ((min (2 : Int) 2 : Int) : Rat)) 3)) ∧
    (incStep 3 (fun _ => 2) (0, 1, some 2)).1 0 = 2 - min (2 : Int) 2 ∧
    (incStep 3 (fun _ => 2) (0, 1, some 2)).1 1 = 2 - min (2 : Int) 2 ∧
    ∀ w, w ≠ 0 → w ≠ 1 → (incStep 3 (fun _ => 2) (0, 1, some 2)).1 w = 2 :=
  increment_bond_orders_step 3 (fun _ => 2) 0 1 (some 2) (by norm_num) (by decide)

theorem doubleBond_missing_0 : bonds_missing doubleBondMol 0 true = .ok 2 := by
  rw [bonds_missing_eval _ 0 true [4] 2 (by decide)
    (by norm_num [loadOf, bonds_of, incidentEdges, atomOf, lookupNode, doubleBondMol, carbonAtom,
      List.filter])]
  norm_num [List.filter]

theorem doubleBond_missing_1 : bonds_missing doubleBondMol 1 true = .ok 2 := by
  rw [bonds_missing_eval _ 1 true [4] 2 (by decide)
    (by norm_num [loadOf, bonds_of, incidentEdges, atomOf, lookupNode, doubleBondMol, carbonAtom,
      List.filter])]
  norm_num [List.filter]

theorem incFold_nil (maxBO : Rat) (m : Nat → Int) : incFold maxBO m [] = (m, []) := rfl

theorem incFold_cons (maxBO : Rat) (m : Nat → Int) (e : Nat × Nat × Option Rat)
    (rest : List (Nat × Nat × Option Rat)) :
    incFold maxBO m (e :: rest)
      = ((incFold maxBO (incStep maxBO m e).1 rest).1,
         (incStep maxBO m e).2 :: (incFold maxBO (incStep maxBO m e).1 rest).2) := rfl

theorem increment_bond_orders_aux_eval (mol : Molecule) (maxBO : Rat) (m0 : Nat → Int)
    (h : initMissing mol = .ok m0) :
    increment_bond_orders_aux mol maxBO
      = .ok ((incFold maxBO m0 mol.edges).1, ⟨mol.nodes, (incFold maxBO m0 mol.edges).2⟩) := by
  unfold increment_bond_orders_aux
  rw [h]
  rfl

/-- C1 counterexample: on two double-bonded carbons each missing two bonds,
with max bond order 3, the only edge is raised from order 2 to the clamped
order 3 (applied increase 1), yet both budgets drop by 2 (to 0) instead of by
the applied increase (which would leave 1). -/
theorem increment_bond_orders_deduction_counterexample :
    (increment_bond_orders_aux doubleBondMol 3).map (fun r => (r.1 0, r.1 1)) = .ok (0, 0) ∧
    (increment_bond_orders_aux doubleBondMol 3).map (fun r => r.2.edges)
      = .ok [(0, 1, some 3)] ∧
    ((2 : Int) - ((3 : Int) - 2) ≠ 0) := by
  have hinit : initMissing doubleBondMol
      = .ok (Function.update (Function.update (fun _ => 0) 0 (max 2 0)) 1 (max 2 0)) := by
    unfold initMissing
    rw [show doubleBondMol.nodes = [(0, carbonAtom (some 0)), (1, carbonAtom (some 0))] from rfl]
    simp only [List.foldlM, bind, Except.bind, doubleBond_missing_0, doubleBond_missing_1]
    rfl
  have haux := increment_bond_orders_aux_eval doubleBondMol 3 _ hinit
  have hedges : doubleBondMol.edges = [(0, 1, some 2)] := rfl
  rw [hedges, incFold_cons, incFold_nil] at haux
  have hm0 : (Function.update (Function.update (fun _ => (0 : Int)) 0 (max 2 0)) 1 (max 2 0)) 0
      = 2 := by simp [Function.update_apply]
  have hm1 : (Function.update (Function.update (fun _ => (0 : Int)) 0 (max 2 0)) 1 (max 2 0)) 1
      = 2 := by simp [Function.update_apply]
  have hstep := increment_bond_orders_step 3
    (Function.update (Function.update (fun _ => 0) 0 (max 2 0)) 1 (max 2 0)) 0 1 (some 2)
    (by norm_num) (by decide)
  rw [hm0, hm1] at hstep
  refine ⟨?_, ?_, by norm_num⟩
  · rw [haux]
    simp only [Except.map]
    rw [hstep.2.1, hstep.2.2.1]
    norm_num
  · rw [haux]
    simp only [Except.map]
    rw [hstep.1]
    norm_num [Option.getD]


theorem lookupNode_setHcount_eq (mol : Molecule) (k : Nat) (v : Int) :
    lookupNode (setHcount mol k v) k = (lookupNode mol k).map (fun a => a.withHcount (some v)) :=
  lookupNode_mapNode_eq mol k _

theorem lookupNode_setHcount_ne (mol : Molecule) (k : Nat) (v : Int) (j : Nat) (h : j ≠ k) :
    lookupNode (setHcount mol k v) j = lookupNode mol j :=
  lookupNode_mapNode_ne mol k _ j h

theorem setHcount_edges (mol : Molecule) (k : Nat) (v : Int) :
    (setHcount mol k v).edges = mol.edges := rfl

theorem keysOf_setHcount (mol : Molecule) (k : Nat) (v : Int) :
    keysOf (setHcount mol k v) = keysOf mol := keysOf_mapNode mol k _

theorem fillStep_cases (rh : Bool) (m m' : Molecule) (k : Nat)
    (h : fillStep rh m k = .ok m') :
    m' = m ∨ ∃ a mb, lookupNode m k = some a ∧ ¬(a.hcount.isSome = true ∧ rh = true) ∧
      bonds_missing m k true = .ok mb ∧
      m' = setHcount m k (a.hcount.getD 0 + max mb 0) := by
  unfold fillStep at h
  cases hl : lookupNode m k with
  | none =>
    rw [hl] at h
    simp only [Option.isNone_none, if_true, Except.ok.injEq] at h
    exact Or.inl h.symm
  | some a =>
    rw [hl] at h
    simp only [Option.isNone_some, Bool.false_eq_true, if_false, Option.getD_some] at h
    by_cases hc : a.hcount.isSome && rh
    · rw [if_pos hc] at h
      simp only [Except.ok.injEq] at h
      exact Or.inl h.symm
    · rw [if_neg hc] at h
      cases hb : bonds_missing m k true with
      | error err => rw [hb] at h; simp [Bind.bind, Except.bind] at h
      | ok mb =>
        rw [hb] at h
        simp only [Bind.bind, Except.bind, Except.ok.injEq] at h
        refine Or.inr ⟨a, mb, rfl, ?_, rfl, h.symm⟩
        intro hand
        exact hc (by simp [hand.1, hand.2])

theorem fillStep_edges_keys (rh : Bool) (m m' : Molecule) (k : Nat)
    (h : fillStep rh m k = .ok m') : m'.edges = m.edges ∧ keysOf m' = keysOf m := by
  rcases fillStep_cases rh m m' k h with rfl | ⟨a, mb, -, -, -, rfl⟩
  · exact ⟨rfl, rfl⟩
  · exact ⟨setHcount_edges _ _ _, keysOf_setHcount _ _ _⟩

theorem fillStep_lookup_ne (rh : Bool) (m m' : Molecule) (k j : Nat)
    (h : fillStep rh m k = .ok m') (hjk : j ≠ k) : lookupNode m' j = lookupNode m j := by
  rcases fillStep_cases rh m m' k h with rfl | ⟨a, mb, -, -, -, rfl⟩
  · rfl
  · exact lookupNode_setHcount_ne m k _ j hjk

theorem fillStep_skip (m : Molecule) (k : Nat)
    (h : ∀ a, lookupNode m k = some a → a.hcount.isSome) :
    fillStep true m k = .ok m := by
  unfold fillStep
  cases hl : lookupNode m k with
  | none => simp
  | some a =>
    simp only [Option.isNone_some, Bool.false_eq_true, if_false, Option.getD_some]
    rw [if_pos (by simp [h a hl])]

theorem fillStep_processed (m m' : Molecule) (k : Nat) (h : fillStep true m k = .ok m') :
    ∀ a', lookupNode m' k = some a' → a'.hcount.isSome := by
  intro a' ha'
  unfold fillStep at h
  cases hl : lookupNode m k with
  | none =>
    rw [hl] at h
    simp only [Option.isNone_none, if_true, Except.ok.injEq] at h
    subst h
    rw [hl] at ha'
    exact absurd ha' (by simp)
  | some a =>
    rw [hl] at h
    simp only [Option.isNone_some, Bool.false_eq_true, if_false, Option.getD_some] at h
    by_cases hc : a.hcount.isSome && true
    · rw [if_pos hc] at h
      simp only [Except.ok.injEq] at h
      subst h
      rw [hl] at ha'
      simp only [Option.some.injEq] at ha'
      subst ha'
      simpa using hc
    · rw [if_neg hc] at h
      cases hb : bonds_missing m k true with
      | error err => rw [hb] at h; simp [Bind.bind, Except.bind] at h
      | ok mb =>
        rw [hb] at h
        simp only [Bind.bind, Except.bind, Except.ok.injEq] at h
        subst h
        rw [lookupNode_setHcount_eq, hl] at ha'
        simp only [Option.map_some', Option.some.injEq] at ha'
        subst ha'
        rfl

theorem fillStep_preserves_some (m m' : Molecule) (j : Nat) (h : fillStep true m j = .ok m') :
    ∀ k a, lookupNode m k = some a → a.hcount.isSome → lookupNode m' k = some a := by
  intro k a hk hsome
  by_cases hjk : k = j
  · subst hjk
    rw [fillStep_skip m k (fun a' ha' => by rw [hk] at ha'; cases ha'; exact hsome)] at h
    simp only [Except.ok.injEq] at h
    subst h
    exact hk
  · rw [fillStep_lookup_ne true m m' j k h hjk]
    exact hk

theorem fillStep_preserves_none (m m' : Molecule) (j : Nat) (h : fillStep true m j = .ok m') :
    ∀ k, lookupNode m k = none → lookupNode m' k = none := by
  intro k hk
  rcases fillStep_cases true m m' j h with rfl | ⟨a, mb, -, -, -, rfl⟩
  · exact hk
  · by_cases hjk : k = j
    · subst hjk
      rw [lookupNode_setHcount_eq, hk]
      rfl
    · rw [lookupNode_setHcount_ne m j _ k hjk]
      exact hk

theorem fillList_split (m m' : Molecule) (k : Nat) (R : List Nat)
    (h : fillList true m (k :: R) = .ok m') :
    ∃ m1, fillStep true m k = .ok m1 ∧ fillList true m1 R = .ok m' := by
  unfold fillList at h
  cases hs : fillStep true m k with
  | error err => rw [hs] at h; simp [Bind.bind, Except.bind] at h
  | ok m1 =>
    rw [hs] at h
    simp only [Bind.bind, Except.bind] at h
    exact ⟨m1, rfl, h⟩

theorem fillList_ok_facts : ∀ (L : List Nat) (m m' : Molecule), fillList true m L = .ok m' →
    m'.edges = m.edges ∧ keysOf m' = keysOf m ∧
    (∀ k a, lookupNode m k = some a → a.hcount.isSome → lookupNode m' k = some a) ∧
    (∀ k, lookupNode m k = none → lookupNode m' k = none) ∧
    (∀ k ∈ L, ∀ a, lookupNode m' k = some a → a.hcount.isSome) := by
  intro L
  induction L with
  | nil =>
    intro m m' h
    simp only [fillList, Except.ok.injEq] at h
    subst h
    exact ⟨rfl, rfl, fun k a hk _ => hk, fun k hk => hk, by simp⟩
  | cons k R ih =>
    intro m m' h
    obtain ⟨m1, hs, hrest⟩ := fillList_split m m' k R h
    obtain ⟨hE1, hK1⟩ := fillStep_edges_keys true m m1 k hs
    obtain ⟨hE2, hK2, hPres, hNone, hAll⟩ := ih m1 m' hrest
    refine ⟨hE2.trans hE1, hK2.trans hK1, ?_, ?_, ?_⟩
    · intro j a hj hsome
      exact hPres j a (fillStep_preserves_some m m1 k hs j a hj hsome) hsome
    · intro j hj
      exact hNone j (fillStep_preserves_none m m1 k hs j hj)
    · intro j hj a' ha'
      rcases List.mem_cons.mp hj with rfl | hjR
      · cases hl1 : lookupNode m1 j with
        | none => rw [hNone j hl1] at ha'; exact absurd ha' (by simp)
        | some a1 =>
          have hsome1 := fillStep_processed m m1 j hs a1 hl1
          rw [hPres j a1 hl1 hsome1] at ha'
          simp only [Option.some.injEq] at ha'
          subst ha'
          exact hsome1
      · exact hAll j hjR a' ha'

theorem fillList_skip (L : List Nat) (m : Molecule)
    (h : ∀ k ∈ L, ∀ a, lookupNode m k = some a → a.hcount.isSome) :
    fillList true m L = .ok m := by
  induction L with
  | nil => rfl
  | cons k R ih =>
    unfold fillList
    rw [fillStep_skip m k (h k (List.mem_cons_self k R))]
    simp only [Bind.bind, Except.bind]
    exact ih fun k' hk' => h k' (List.mem_cons_of_mem k hk')

/-- C8: running `fill_valence` twice with `respect_hcount=true` produces
exactly the same graph as running it once: the first run gives every node an
`hcount`, so the second run skips every node. -/
theorem fill_valence_idempotent (mol mol' : Molecule)
    (h : fill_valence mol true true 3 = .ok mol') :
    fill_valence mol' true true 3 = .ok mol' := by
  have h' : fillList true mol (keysOf mol) = .ok mol' := h
  obtain ⟨-, hK, -, -, hAll⟩ := fillList_ok_facts (keysOf mol) mol mol' h'
  show fillList true mol' (keysOf mol') = .ok mol'
  rw [hK]
  exact fillList_skip (keysOf mol) mol' hAll

/-- A bare uncharged hydrogen atom record with no stored hcount. -/
def hydrogenAtom : Atom := ⟨some "H", some 0, none, some false, none, none, none⟩

/-- A molecule consisting of one isolated hydrogen atom without hcount. -/
def isolatedHMol : Molecule := ⟨[(0, hydrogenAtom)], []⟩

/-- The result of `fill_valence` on `isolatedHMol`. -/
def isolatedHMolFilled : Molecule :=
  ⟨[(0, ⟨some "H", some 0, some 1, some false, none, none, none⟩)], []⟩

theorem isolatedH_missing : bonds_missing isolatedHMol 0 true = .ok 1 := by
  rw [bonds_missing_eval _ 0 true [1] 0 (by decide)
    (by norm_num [loadOf, bonds_of, incidentEdges, atomOf, lookupNode, isolatedHMol,
      hydrogenAtom, List.filter])]
  norm_num [List.filter]

theorem isolatedH_fill : fill_valence isolatedHMol true true 3 = .ok isolatedHMolFilled := by
  have hstep : fillStep true isolatedHMol 0 = .ok isolatedHMolFilled := by
    unfold fillStep
    rw [show lookupNode isolatedHMol 0 = some hydrogenAtom from rfl]
    simp only [Option.isNone_some, Bool.false_eq_true, if_false, Option.getD_some]
    rw [if_neg (by simp [hydrogenAtom])]
    rw [isolatedH_missing]
    simp only [Bind.bind, Except.bind, Except.ok.injEq]
    decide
  show fillList true isolatedHMol [0] = .ok isolatedHMolFilled
  unfold fillList
  rw [hstep]
  simp only [Bind.bind, Except.bind]
  rfl

theorem fill_valence_idempotent_witness :
    fill_valence isolatedHMolFilled true true 3 = .ok isolatedHMolFilled :=
  fill_valence_idempotent isolatedHMol isolatedHMolFilled isolatedH_fill

/-- C3 counterexample: `fill_valence` on an isolated uncharged hydrogen atom
without an hcount raises no error and stores the positive hcount 1 on the
hydrogen itself. -/
theorem fill_valence_hydrogen_positive_hcount :
    fill_valence isolatedHMol true true 3 = .ok isolatedHMolFilled ∧
    (atomOf isolatedHMolFilled 0).element = some "H" ∧
    (atomOf isolatedHMolFilled 0).hcount = some 1 ∧ (0 : Int) < 1 :=
  ⟨isolatedH_fill, by decide, by decide, by decide⟩

theorem bonds_missing_congr (m₁ m₂ : Molecule) (k : Nat) (u : Bool)
    (hE : m₁.edges = m₂.edges) (hL : lookupNode m₁ k = lookupNode m₂ k) :
    bonds_missing m₁ k u = bonds_missing m₂ k u := by
  unfold bonds_missing loadOf bonds_of atomOf incidentEdges neighbors
  rw [hE, hL]

theorem fillList_spec : ∀ (L : List Nat) (m m' : Molecule), fillList true m L = .ok m' →
    ∀ k ∈ L, ∀ a, lookupNode m k = some a → a.hcount = none →
    ∃ mb, bonds_missing m k true = .ok mb ∧
      lookupNode m' k = some (a.withHcount (some (a.hcount.getD 0 + max mb 0))) := by
  intro L
  induction L with
  | nil => intro m m' h k hk; exact absurd hk (List.not_mem_nil k)
  | cons j R ih =>
    intro m m' h k hk a hka hnone
    obtain ⟨m1, hs, hrest⟩ := fillList_split m m' j R h
    by_cases hkj : k = j
    · subst hkj
      -- the step processes k itself
      have hstep := hs
      unfold fillStep at hstep
      rw [hka] at hstep
      simp only [Option.isNone_some, Bool.false_eq_true, if_false, Option.getD_some] at hstep
      rw [if_neg (by simp [hnone])] at hstep
      cases hb : bonds_missing m k true with
      | error err => rw [hb] at hstep; simp [Bind.bind, Except.bind] at hstep
      | ok mb =>
        rw [hb] at hstep
        simp only [Bind.bind, Except.bind, Except.ok.injEq] at hstep
        subst hstep
        refine ⟨mb, rfl, ?_⟩
        have hl1 : lookupNode (setHcount m k (a.hcount.getD 0 + max mb 0)) k
            = some (a.withHcount (some (a.hcount.getD 0 + max mb 0))) := by
          rw [lookupNode_setHcount_eq, hka]
          rfl
        exact (fillList_ok_facts R _ m' hrest).2.2.1 k _ hl1 rfl
    · -- processed later; the step on j leaves k untouched
      have hl1 : lookupNode m1 k = some a := by
        rw [fillStep_lookup_ne true m m1 j k hs hkj]
        exact hka
      have hkR : k ∈ R := by
        rcases List.mem_cons.mp hk with h' | h'
        · exact absurd h' hkj
        · exact h'
      obtain ⟨mb, hmb, hfin⟩ := ih m1 m' hrest k hkR a hl1 hnone
      refine ⟨mb, ?_, hfin⟩
      rw [bonds_missing_congr m m1 k true (fillStep_edges_keys true m m1 j hs).1.symm
        (by rw [hl1, hka])]
      exact hmb

theorem bonds_missing_ok_valence (m : Molecule) (k : Nat) (u : Bool) (r : Int)
    (h : bonds_missing m k u = .ok r) : ∃ vals, valence (atomOf m k) = .ok vals := by
  unfold bonds_missing at h
  cases hv : valence (atomOf m k) with
  | error e => rw [hv] at h; simp [Bind.bind, Except.bind] at h
  | ok vals => exact ⟨vals, rfl⟩

theorem has_default_eval (mol : Molecule) (k : Nat) (u : Bool) (vals : List Int) (B : Rat)
    (hval : valence (atomOf mol k) = .ok vals) (hB : bonds_of mol k u = B) :
    has_default_h_count mol k u
      = .ok (decide (max ((((if (vals.filter (fun (v : Int) => decide (B ≤ (v : Rat)))).isEmpty
          then [0] else vals.filter (fun (v : Int) => decide (B ≤ (v : Rat)))).headD 0 : Int) : Rat)
          - B) 0 = (((atomOf mol k).hcount.getD 0 : Int) : Rat))) := by
  unfold has_default_h_count
  rw [hB, hval]
  rfl

theorem bonds_of_congr (m₁ m₂ : Molecule) (k : Nat) (u : Bool) (hE : m₁.edges = m₂.edges) :
    bonds_of m₁ k u = bonds_of m₂ k u := by
  unfold bonds_of incidentEdges neighbors
  rw [hE]

/-- C7 (amended): after `fill_valence` with default settings,
`has_default_h_count` is true for every atom the pass touched (every atom
that lacked an hcount) whose order-weighted bond load is an integer.  (An
atom incident to an odd number of 1.5-order bonds has a fractional load: the
stored hcount is the truncated `int(...)`, while `has_default_h_count`
compares against the untruncated value, so the two disagree there.) -/
theorem fill_valence_default_hcount (mol mol' : Molecule) (k : Nat) (a : Atom)
    (hfv : fill_valence mol true true 3 = .ok mol')
    (hk : lookupNode mol k = some a) (hnone : a.hcount = none)
    (z : Int) (hz : bonds_of mol k true = (z : Rat)) :
    has_default_h_count mol' k true = .ok true := by
  have h : fillList true mol (keysOf mol) = .ok mol' := hfv
  obtain ⟨mb, hmb, hlook⟩ :=
    fillList_spec (keysOf mol) mol mol' h k (lookupNode_mem_keys mol k a hk) a hk hnone
  obtain ⟨hE, -, -, -, -⟩ := fillList_ok_facts (keysOf mol) mol mol' h
  have hatom : atomOf mol k = a := by unfold atomOf; rw [hk]; rfl
  obtain ⟨vals, hv⟩ := bonds_missing_ok_valence mol k true mb hmb
  have hload : loadOf mol k true = (z : Rat) := by
    unfold loadOf
    rw [hatom, hz, hnone]
    norm_num
  rw [bonds_missing_eval mol k true vals (z : Rat) hv hload] at hmb
  simp only [Except.ok.injEq] at hmb
  have hfloor : mb = max ((((if (vals.filter (fun (v : Int) =>
      decide ((z : Rat) ≤ (v : Rat)))).isEmpty then [0]
      else vals.filter (fun (v : Int) => decide ((z : Rat) ≤ (v : Rat)))).headD 0 : Int)) - z) 0 := by
    rw [← hmb]
    rw [show ((((if (vals.filter (fun (v : Int) => decide ((z : Rat) ≤ (v : Rat)))).isEmpty
        then [0] else vals.filter (fun (v : Int) =>
        decide ((z : Rat) ≤ (v : Rat)))).headD 0 : Int) : Rat) - (z : Rat))
      = ((((if (vals.filter (fun (v : Int) => decide ((z : Rat) ≤ (v : Rat)))).isEmpty
        then [0] else vals.filter (fun (v : Int) =>
        decide ((z : Rat) ≤ (v : Rat)))).headD 0 : Int) - z : Int) : Rat) by push_cast; ring]
    rw [show (0 : Rat) = ((0 : Int) : Rat) by norm_num]
    rw [← Int.cast_max, Int.floor_intCast]
  have hmb0 : 0 ≤ mb := hfloor ▸ le_max_right _ _
  have hatom' : atomOf mol' k = a.withHcount (some (0 + max mb 0)) := by
    unfold atomOf
    rw [hlook, hnone]
    rfl
  have hvv : valence (atomOf mol' k) = .ok vals := by
    rw [hatom']
    show valence a = .ok vals
    rw [← hatom]
    exact hv
  have hB' : bonds_of mol' k true = (z : Rat) := (bonds_of_congr mol' mol k true hE).trans hz
  rw [has_default_eval mol' k true vals (z : Rat) hvv hB']
  simp only [Except.ok.injEq, decide_eq_true_eq]
  rw [hatom']
  show _ = (((some (0 + max mb 0)).getD 0 : Int) : Rat)
  simp only [Option.getD_some]
  rw [show (0 + max mb 0) = mb by omega, hfloor]
  push_cast [Int.cast_max]
  norm_num

theorem fillStep_compute (m : Molecule) (k : Nat) (a : Atom) (mb : Int)
    (hl : lookupNode m k = some a) (hnone : a.hcount = none)
    (hb : bonds_missing m k true = .ok mb) :
    fillStep true m k = .ok (setHcount m k (a.hcount.getD 0 + max mb 0)) := by
  unfold fillStep
  rw [hl]
  simp only [Option.isNone_some, Bool.false_eq_true, if_false, Option.getD_some]
  rw [if_neg (by simp [hnone])]
  rw [hb]
  rfl

theorem fillList_two (m M1 M2 : Molecule) (k0 k1 : Nat)
    (h0 : fillStep true m k0 = .ok M1) (h1 : fillStep true M1 k1 = .ok M2) :
    fillList true m [k0, k1] = .ok M2 := by
  unfold fillList
  rw [h0]
  simp only [Bind.bind, Except.bind]
  unfold fillList
  rw [h1]
  simp only [Bind.bind, Except.bind]
  rfl

/-- Two double-bonded carbons with no stored hcount. -/
def noHCarbonPairMol : Molecule :=
  ⟨[(0, carbonAtom none), (1, carbonAtom none)], [(0, 1, some 2)]⟩

/-- `fill_valence` output on `noHCarbonPairMol`. -/
def noHCarbonPairFilled : Molecule :=
  ⟨[(0, carbonAtom (some 2)), (1, carbonAtom (some 2))], [(0, 1, some 2)]⟩

theorem noHpair_missing_0 : bonds_missing noHCarbonPairMol 0 true = .ok 2 := by
  rw [bonds_missing_eval _ 0 true [4] 2 (by decide)
    (by norm_num [loadOf, bonds_of, incidentEdges, atomOf, lookupNode, noHCarbonPairMol,
      carbonAtom, List.filter])]
  norm_num [List.filter]

theorem noHpair_fill :
    fill_valence noHCarbonPairMol true true 3 = .ok noHCarbonPairFilled := by
  have hs0 := fillStep_compute noHCarbonPairMol 0 (carbonAtom none) 2 rfl rfl noHpair_missing_0
  have hs0' : fillStep true noHCarbonPairMol 0
      = .ok ⟨[(0, carbonAtom (some 2)), (1, carbonAtom none)], [(0, 1, some 2)]⟩ := by
    rw [hs0]; rfl
  have hb1 : bonds_missing (⟨[(0, carbonAtom (some 2)), (1, carbonAtom none)],
      [(0, 1, some 2)]⟩ : Molecule) 1 true = .ok 2 := by
    rw [bonds_missing_eval _ 1 true [4] 2 (by decide)
      (by norm_num [loadOf, bonds_of, incidentEdges, atomOf, lookupNode, carbonAtom,
        List.filter])]
    norm_num [List.filter]
  have hs1 := fillStep_compute (⟨[(0, carbonAtom (some 2)), (1, carbonAtom none)],
      [(0, 1, some 2)]⟩ : Molecule) 1 (carbonAtom none) 2 rfl rfl hb1
  have hs1' : fillStep true (⟨[(0, carbonAtom (some 2)), (1, carbonAtom none)],
      [(0, 1, some 2)]⟩ : Molecule) 1 = .ok noHCarbonPairFilled := by
    rw [hs1]; rfl
  show fillList true noHCarbonPairMol [0, 1] = .ok noHCarbonPairFilled
  exact fillList_two _ _ _ 0 1 hs0' hs1'

theorem fill_valence_default_hcount_witness :
    has_default_h_count noHCarbonPairFilled 0 true = .ok true :=
  fill_valence_default_hcount noHCarbonPairMol noHCarbonPairFilled 0 (carbonAtom none)
    noHpair_fill rfl rfl 2
    (by norm_num [bonds_of, incidentEdges, noHCarbonPairMol, List.filter])

/-- Two carbons joined by a single aromatic 1.5 bond, no stored hcounts. -/
def aromaticNoHMol : Molecule :=
  ⟨[(0, carbonAtom none), (1, carbonAtom none)], [(0, 1, some (3 / 2 : Rat))]⟩

/-- `fill_valence` output on `aromaticNoHMol`: the fractional load 1.5 is
truncated, both atoms get hcount `int(4 - 1.5) = 2`. -/
def aromaticNoHFilled : Molecule :=
  ⟨[(0, carbonAtom (some 2)), (1, carbonAtom (some 2))], [(0, 1, some (3 / 2 : Rat))]⟩

theorem aromaticNoH_missing_0 : bonds_missing aromaticNoHMol 0 true = .ok 2 := by
  rw [bonds_missing_eval _ 0 true [4] (3 / 2) (by decide)
    (by norm_num [loadOf, bonds_of, incidentEdges, atomOf, lookupNode, aromaticNoHMol,
      carbonAtom, List.filter])]
  norm_num [List.filter]

theorem aromaticNoH_fill :
    fill_valence aromaticNoHMol true true 3 = .ok aromaticNoHFilled := by
  have hs0 := fillStep_compute aromaticNoHMol 0 (carbonAtom none) 2 rfl rfl aromaticNoH_missing_0
  have hs0' : fillStep true aromaticNoHMol 0
      = .ok ⟨[(0, carbonAtom (some 2)), (1, carbonAtom none)], [(0, 1, some (3 / 2 : Rat))]⟩ := by
    rw [hs0]; rfl
  have hb1 : bonds_missing (⟨[(0, carbonAtom (some 2)), (1, carbonAtom none)],
      [(0, 1, some (3 / 2 : Rat))]⟩ : Molecule) 1 true = .ok 2 := by
    rw [bonds_missing_eval _ 1 true [4] (3 / 2) (by decide)
      (by norm_num [loadOf, bonds_of, incidentEdges, atomOf, lookupNode, carbonAtom,
        List.filter])]
    norm_num [List.filter]
  have hs1 := fillStep_compute (⟨[(0, carbonAtom (some 2)), (1, carbonAtom none)],
      [(0, 1, some (3 / 2 : Rat))]⟩ : Molecule) 1 (carbonAtom none) 2 rfl rfl hb1
  have hs1' : fillStep true (⟨[(0, carbonAtom (some 2)), (1, carbonAtom none)],
      [(0, 1, some (3 / 2 : Rat))]⟩ : Molecule) 1 = .ok aromaticNoHFilled := by
    rw [hs1]; rfl
  show fillList true aromaticNoHMol [0, 1] = .ok aromaticNoHFilled
  exact fillList_two _ _ _ 0 1 hs0' hs1'

/-- C7 counterexample: the atom 0 of `aromaticNoHMol` is touched by
`fill_valence` (it lacked an hcount) and is incident to a 1.5-order bond,
yet afterwards `has_default_h_count` is false for it: the stored count is
the truncated 2 while the comparison value is the untruncated 5/2. -/
theorem fill_valence_fractional_not_default :
    fill_valence aromaticNoHMol true true 3 = .ok aromaticNoHFilled ∧
    (atomOf aromaticNoHMol 0).hcount = none ∧
    has_default_h_count aromaticNoHFilled 0 true = .ok false := by
  refine ⟨aromaticNoH_fill, rfl, ?_⟩
  rw [has_default_eval aromaticNoHFilled 0 true [4] (3 / 2) (by decide)
    (by norm_num [bonds_of, incidentEdges, aromaticNoHFilled, List.filter])]
  simp only [Except.ok.injEq]
  rw [decide_eq_false_iff_not]
  norm_num [List.filter, atomOf, lookupNode, aromaticNoHFilled, carbonAtom]

/-- C3 (amended): the hydrogen-hcount invariant is enforced only at parsing:
`parse_atom` rejects every bracket token whose element is H with a nonzero
hcount, and `fill_valence` stores hcount 0 on any uncharged H atom (without
a stored hcount) whose bond load is at least 1 — but `fill_valence` performs
no validation, and an isolated H atom without hcount receives the positive
hcount 1 with no error, so the invariant does not hold across all core
operations. -/
theorem hydrogen_hcount_parse_only :
    (∀ g a, parse_atom_bracket g = .ok a → a.element = some "H" → a.hcount.getD 0 = 0) ∧
    (∀ mol mol' k a, lookupNode mol k = some a → a.element = some "H" →
      a.charge.getD 0 = 0 → a.hcount = none → 1 ≤ loadOf mol k true →
      fill_valence mol true true 3 = .ok mol' →
      lookupNode mol' k = some (a.withHcount (some 0))) := by
  constructor
  · intro g a hok hel
    unfold parse_atom_bracket at hok
    by_cases hrej : ((if (g.element.map pyCapitalize) = some "*" then none
        else g.element.map pyCapitalize) = some "H"
        && (match g.hcount with | some s => parse_hcount s | none => 0) != 0)
    · rw [if_pos hrej] at hok
      exact absurd hok (by simp)
    · rw [if_neg hrej] at hok
      simp only [Except.ok.injEq] at hok
      subst hok
      simp only [bne_iff_ne, Bool.and_eq_true, decide_eq_true_eq, not_and, ne_eq,
        Decidable.not_not] at hrej
      simp only at hel
      show ((some (match g.hcount with | some s => parse_hcount s | none => 0) :
        Option Int)).getD 0 = 0
      rw [Option.getD_some]
      exact hrej hel
  · intro mol mol' k a hk hel hch hnone hge hfv
    have h : fillList true mol (keysOf mol) = .ok mol' := hfv
    obtain ⟨mb, hmb, hlook⟩ :=
      fillList_spec (keysOf mol) mol mol' h k (lookupNode_mem_keys mol k a hk) a hk hnone
    have hatom : atomOf mol k = a := by unfold atomOf; rw [hk]; rfl
    have hval : valence (atomOf mol k) = .ok [1] := by
      unfold valence
      rw [hatom, hel, hch]
      decide
    rw [bonds_missing_eval mol k true [1] (loadOf mol k true) hval rfl] at hmb
    simp only [Except.ok.injEq] at hmb
    have hmb0 : mb = 0 := by
      rw [← hmb]
      by_cases hL1 : loadOf mol k true ≤ (1 : Rat)
      · have hL : loadOf mol k true = 1 := le_antisymm hL1 hge
        rw [hL]
        norm_num [List.filter]
      · have hdec : decide (loadOf mol k true ≤ ((1 : Int) : Rat)) = false := by
          rw [decide_eq_false_iff_not]
          intro hc
          exact hL1 (by exact_mod_cast hc)
        rw [show ([(1 : Int)].filter (fun (v : Int) =>
            decide (loadOf mol k true ≤ (v : Rat)))) = [] from by
          rw [List.filter_cons, hdec]
          simp]
        simp only [List.isEmpty_nil, if_true, List.headD_cons]
        rw [show max (((0 : Int) : Rat) - loadOf mol k true) 0 = 0 from by
          rw [max_eq_right]
          push_neg at hL1
          push_cast
          linarith]
        norm_num
    rw [hlook, hmb0, hnone]
    rfl

/-- The H2 molecule: two explicit hydrogens with one single bond, hcounts
absent. -/
def molH2 : Molecule := ⟨[(0, hydrogenAtom), (1, hydrogenAtom)], [(0, 1, some 1)]⟩

/-- `fill_valence` output on `molH2`: both hydrogens get hcount 0. -/
def molH2Filled : Molecule :=
  ⟨[(0, hydrogenAtom.withHcount (some 0)), (1, hydrogenAtom.withHcount (some 0))],
   [(0, 1, some 1)]⟩

theorem molH2_missing_0 : bonds_missing molH2 0 true = .ok 0 := by
  rw [bonds_missing_eval _ 0 true [1] 1 (by decide)
    (by norm_num [loadOf, bonds_of, incidentEdges, atomOf, lookupNode, molH2,
      hydrogenAtom, List.filter])]
  norm_num [List.filter]

theorem molH2_fill : fill_valence molH2 true true 3 = .ok molH2Filled := by
  have hs0 := fillStep_compute molH2 0 hydrogenAtom 0 rfl rfl molH2_missing_0
  have hs0' : fillStep true molH2 0
      = .ok ⟨[(0, hydrogenAtom.withHcount (some 0)), (1, hydrogenAtom)], [(0, 1, some 1)]⟩ := by
    rw [hs0]; rfl
  have hb1 : bonds_missing (⟨[(0, hydrogenAtom.withHcount (some 0)), (1, hydrogenAtom)],
      [(0, 1, some 1)]⟩ : Molecule) 1 true = .ok 0 := by
    rw [bonds_missing_eval _ 1 true [1] 1 (by decide)
      (by norm_num [loadOf, bonds_of, incidentEdges, atomOf, lookupNode, hydrogenAtom,
        List.filter])]
    norm_num [List.filter]
  have hs1 := fillStep_compute (⟨[(0, hydrogenAtom.withHcount (some 0)), (1, hydrogenAtom)],
      [(0, 1, some 1)]⟩ : Molecule) 1 hydrogenAtom 0 rfl rfl hb1
  have hs1' : fillStep true (⟨[(0, hydrogenAtom.withHcount (some 0)), (1, hydrogenAtom)],
      [(0, 1, some 1)]⟩ : Molecule) 1 = .ok molH2Filled := by
    rw [hs1]; rfl
  show fillList true molH2 [0, 1] = .ok molH2Filled
  exact fillList_two _ _ _ 0 1 hs0' hs1'

theorem hydrogen_hcount_parse_only_witness :
    ((⟨some "H", some 0, some 0, some false, none, none, none⟩ : Atom).hcount.getD 0 = 0) ∧
    lookupNode molH2Filled 0 = some (hydrogenAtom.withHcount (some 0)) :=
  ⟨hydrogen_hcount_parse_only.1 ⟨none, some "H", none, none, none, none⟩
      ⟨some "H", some 0, some 0, some false, none, none, none⟩ (by decide) rfl,
   hydrogen_hcount_parse_only.2 molH2 molH2Filled 0 hydrogenAtom rfl rfl rfl rfl
      (by norm_num [loadOf, bonds_of, incidentEdges, atomOf, lookupNode, molH2,
        hydrogenAtom, List.filter])
      molH2_fill⟩

/-- The set of vertices covered by a list of matched pairs. -/
def touchedVerts (M : List (Nat × Nat)) : Finset Nat :=
  M.foldr (fun p t => insert p.1 (insert p.2 t)) ∅

theorem mem_touchedVerts (M : List (Nat × Nat)) (x : Nat) :
    x ∈ touchedVerts M ↔ ∃ p ∈ M, x = p.1 ∨ x = p.2 := by
  induction M with
  | nil => simp [touchedVerts]
  | cons p R ih =>
    show x ∈ insert p.1 (insert p.2 (touchedVerts R)) ↔ _
    simp only [Finset.mem_insert, ih, List.mem_cons]
    constructor
    · rintro (h | h | ⟨q, hq, h⟩)
      · exact ⟨p, Or.inl rfl, Or.inl h⟩
      · exact ⟨p, Or.inl rfl, Or.inr h⟩
      · exact ⟨q, Or.inr hq, h⟩
    · rintro ⟨q, hq | hq, h⟩
      · subst hq; rcases h with h | h
        · exact Or.inl h
        · exact Or.inr (Or.inl h)
      · exact Or.inr (Or.inr ⟨q, hq, h⟩)

theorem touchedVerts_card (M : List (Nat × Nat))
    (hp : M.Pairwise (fun p q => p.1 ≠ q.1 ∧ p.1 ≠ q.2 ∧ p.2 ≠ q.1 ∧ p.2 ≠ q.2))
    (hne : ∀ p ∈ M, p.1 ≠ p.2) :
    (touchedVerts M).card = 2 * M.length := by
  induction M with
  | nil => simp [touchedVerts]
  | cons p R ih =>
    obtain ⟨hpR, hR⟩ := List.pairwise_cons.mp hp
    have hp2 : p.2 ∉ touchedVerts R := by
      rw [mem_touchedVerts]
      rintro ⟨q, hq, h | h⟩
      · exact (hpR q hq).2.2.1 h
      · exact (hpR q hq).2.2.2 h
    have hp1 : p.1 ∉ insert p.2 (touchedVerts R) := by
      rw [Finset.mem_insert, mem_touchedVerts]
      rintro (h | ⟨q, hq, h | h⟩)
      · exact hne p (List.mem_cons_self p R) h
      · exact (hpR q hq).1 h
      · exact (hpR q hq).2.1 h
    show (insert p.1 (insert p.2 (touchedVerts R))).card = 2 * (R.length + 1)
    rw [Finset.card_insert_of_not_mem hp1, Finset.card_insert_of_not_mem hp2,
      ih hR (fun q hq => hne q (List.mem_cons_of_mem p hq))]
    ring

theorem matchEdgesOk_spec (mol : Molecule) (S : List Nat) (M : List (Nat × Nat))
    (h : matchEdgesOk mol S M = true) :
    ∀ p ∈ M, p.1 ∈ S ∧ p.2 ∈ S ∧ p.1 ≠ p.2 ∧ hasEdge mol p.1 p.2 = true := by
  intro p hp
  unfold matchEdgesOk at h
  rw [List.all_eq_true] at h
  have hh := h p hp
  simp only [Bool.and_eq_true, bne_iff_ne, ne_eq] at hh
  exact ⟨by simpa using hh.1.1.1, by simpa using hh.1.1.2, hh.1.2, hh.2⟩

theorem touchedVerts_subset (mol : Molecule) (S : List Nat) (M : List (Nat × Nat))
    (h : matchEdgesOk mol S M = true) : touchedVerts M ⊆ S.toFinset := by
  intro x hx
  rw [mem_touchedVerts] at hx
  obtain ⟨p, hp, hx⟩ := hx
  obtain ⟨h1, h2, -, -⟩ := matchEdgesOk_spec mol S M h p hp
  rcases hx with rfl | rfl
  · exact List.mem_toFinset.mpr h1
  · exact List.mem_toFinset.mpr h2

theorem matching_card_le (mol : Molecule) (S : List Nat) (M : List (Nat × Nat))
    (hS : S.Nodup) (h : IsMatchingOn mol S M) : 2 * M.length ≤ S.length := by
  have hne : ∀ p ∈ M, p.1 ≠ p.2 := fun p hp => (matchEdgesOk_spec mol S M h.1 p hp).2.2.1
  calc 2 * M.length = (touchedVerts M).card := (touchedVerts_card M h.2 hne).symm
    _ ≤ S.toFinset.card := Finset.card_le_card (touchedVerts_subset mol S M h.1)
    _ = S.length := by rw [List.toFinset_card_of_nodup hS]

theorem perfect_matching_card (mol : Molecule) (S : List Nat) (M : List (Nat × Nat))
    (hS : S.Nodup) (h : IsPerfectMatchingOn mol S M) : 2 * M.length = S.length := by
  refine le_antisymm (matching_card_le mol S M hS h.1) ?_
  have hsub : S.toFinset ⊆ touchedVerts M := by
    intro x hx
    rw [mem_touchedVerts]
    exact h.2 x (List.mem_toFinset.mp hx)
  have hne : ∀ p ∈ M, p.1 ≠ p.2 := fun p hp => (matchEdgesOk_spec mol S M h.1.1 p hp).2.2.1
  calc S.length = S.toFinset.card := (List.toFinset_card_of_nodup hS).symm
    _ ≤ (touchedVerts M).card := Finset.card_le_card hsub
    _ = 2 * M.length := touchedVerts_card M h.1.2 hne

theorem isMax_perfect_iff (mol : Molecule) (S : List Nat) (M : List (Nat × Nat))
    (hS : S.Nodup) (hM : IsMaxMatchingOn mol S M) :
    IsPerfectMatchingOn mol S M ↔ HasPerfectMatchingOn mol S := by
  constructor
  · exact fun h => ⟨M, h⟩
  · rintro ⟨Q, hQ⟩
    refine ⟨hM.1, ?_⟩
    have hQcard : 2 * Q.length = S.length := perfect_matching_card mol S Q hS hQ
    have hge : Q.length ≤ M.length := hM.2 Q hQ.1
    have hle : 2 * M.length ≤ S.length := matching_card_le mol S M hS hM.1
    have hne : ∀ p ∈ M, p.1 ≠ p.2 := fun p hp => (matchEdgesOk_spec mol S M hM.1.1 p hp).2.2.1
    have hcard : (touchedVerts M).card = S.toFinset.card := by
      rw [touchedVerts_card M hM.1.2 hne, List.toFinset_card_of_nodup hS]
      omega
    have heq : touchedVerts M = S.toFinset :=
      Finset.eq_of_subset_of_card_le (touchedVerts_subset mol S M hM.1.1) (le_of_eq hcard.symm)
    intro w hw
    have hw' : w ∈ touchedVerts M := by
      rw [heq]
      exact List.mem_toFinset.mpr hw
    rw [mem_touchedVerts] at hw'
    exact hw'

theorem odd_no_perfect_matching (mol : Molecule) (S : List Nat) (hS : S.Nodup)
    (hodd : Odd S.length) : ¬ HasPerfectMatchingOn mol S := by
  rintro ⟨Q, hQ⟩
  have := perfect_matching_card mol S Q hS hQ
  obtain ⟨t, ht⟩ := hodd
  omega

theorem compAux_nodup (mol : Molecule) (S : List Nat) (hS : S.Nodup) :
    ∀ (n : Nat) (cur : List Nat), cur.Nodup → (compAux mol S n cur).Nodup := by
  intro n
  induction n with
  | zero => exact fun cur h => h
  | succ n ih =>
    intro cur hcur
    exact ih _ (hS.filter _)

theorem componentOf_nodup (mol : Molecule) (S : List Nat) (v : Nat) (hS : S.Nodup) :
    (componentOf mol S v).Nodup :=
  compAux_nodup mol S hS S.length [v] (List.nodup_singleton v)

theorem filterE_sublist (f : Nat → Except VErr Bool) :
    ∀ (L P : List Nat), filterE f L = .ok P → P.Sublist L := by
  intro L
  induction L with
  | nil =>
    intro P h
    simp only [filterE, Except.ok.injEq] at h
    subst h
    exact List.Sublist.refl []
  | cons x xs ih =>
    intro P h
    unfold filterE at h
    cases hb : f x with
    | error err => rw [hb] at h; simp [Bind.bind, Except.bind] at h
    | ok b =>
      rw [hb] at h
      simp only [Bind.bind, Except.bind] at h
      cases hr : filterE f xs with
      | error err => rw [hr] at h; simp at h
      | ok rest =>
        rw [hr] at h
        simp only [Except.ok.injEq] at h
        subst h
        cases b with
        | true => exact List.Sublist.cons₂ x (ih rest hr)
        | false => exact List.Sublist.cons x (ih rest hr)

/-- C4: with the external maximum-matching routine modeled as any function
returning a maximum-cardinality matching per component,
`mark_aromatic_atoms` raises the kekulization error exactly when some
connected component of the delocalization graph admits no perfect matching;
in particular every odd-sized component raises it. -/
theorem mark_aromatic_raises_iff (mol : Molecule) (chooseM : List Nat → List (Nat × Nat))
    (P : List Nat) (hP : prunedNodes mol = .ok P) (hkeys : (keysOf mol).Nodup)
    (hM : ∀ v ∈ P, IsMaxMatchingOn mol (componentOf mol P v) (chooseM (componentOf mol P v))) :
    (markAromaticAtomsRaises mol chooseM = .ok true ↔
      ∃ v ∈ P, ¬ HasPerfectMatchingOn mol (componentOf mol P v)) ∧
    (∀ v ∈ P, Odd (componentOf mol P v).length →
      markAromaticAtomsRaises mol chooseM = .ok true) := by
  have hPnodup : P.Nodup := (filterE_sublist _ (keysOf mol) P hP).nodup hkeys
  have hraises : markAromaticAtomsRaises mol chooseM = .ok (P.any (fun v =>
      !(decide (IsPerfectMatchingOn mol (componentOf mol P v)
        (chooseM (componentOf mol P v)))))) := by
    unfold markAromaticAtomsRaises
    rw [hP]
    rfl
  have hiff : ∀ v ∈ P,
      ((¬ IsPerfectMatchingOn mol (componentOf mol P v) (chooseM (componentOf mol P v))) ↔
        ¬ HasPerfectMatchingOn mol (componentOf mol P v)) := fun v hv =>
    not_congr (isMax_perfect_iff mol _ _ (componentOf_nodup mol P v hPnodup) (hM v hv))
  constructor
  · rw [hraises]
    simp only [Except.ok.injEq, List.any_eq_true, Bool.not_eq_true', decide_eq_false_iff_not]
    constructor
    · rintro ⟨v, hv, hnp⟩
      exact ⟨v, hv, (hiff v hv).mp hnp⟩
    · rintro ⟨v, hv, hnp⟩
      exact ⟨v, hv, (hiff v hv).mpr hnp⟩
  · intro v hv hodd
    rw [hraises]
    simp only [Except.ok.injEq, List.any_eq_true, Bool.not_eq_true', decide_eq_false_iff_not]
    exact ⟨v, hv, (hiff v hv).mpr
      (odd_no_perfect_matching mol _ (componentOf_nodup mol P v hPnodup) hodd)⟩

/-- A ring of five wildcard atoms: an odd-sized, fully-eligible
delocalization component. -/
def wildRing5 : Molecule :=
  ⟨[(0, emptyAtom), (1, emptyAtom), (2, emptyAtom), (3, emptyAtom), (4, emptyAtom)],
   [(0, 1, none), (1, 2, none), (2, 3, none), (3, 4, none), (4, 0, none)]⟩

theorem mark_aromatic_raises_iff_witness :
    markAromaticAtomsRaises wildRing5 (fun _ => [(0, 1), (2, 3)]) = .ok true := by
  have h5 : ∀ w ∈ [0, 1, 2, 3, 4],
      (componentOf wildRing5 [0, 1, 2, 3, 4] w).length = 5 := by decide
  have h := mark_aromatic_raises_iff wildRing5 (fun _ => [(0, 1), (2, 3)]) [0, 1, 2, 3, 4]
    (by decide) (by decide) ?hm
  · exact h.2 0 (by decide) (by decide)
  case hm =>
    intro v hv
    fin_cases hv <;>
      refine ⟨by decide, fun M' hM' => ?_⟩ <;>
      · have hb := matching_card_le wildRing5 _ M' (by decide) hM'
        rw [h5 _ (by decide)] at hb
        simp only [List.length_cons, List.length_nil]
        omega

theorem lookup_isSome_of_mem (m : Molecule) (k : Nat) (h : k ∈ keysOf m) :
    ∃ a, lookupNode m k = some a := by
  unfold keysOf at h
  obtain ⟨p, hp, hk⟩ := List.mem_map.mp h
  subst hk
  unfold lookupNode
  cases hf : m.nodes.find? (fun q => q.1 == p.1) with
  | none =>
    rw [List.find?_eq_none] at hf
    exact absurd (by simp : (p.1 == p.1) = true) (hf p hp)
  | some q => exact ⟨q.2, rfl⟩

theorem foldl_max_init (l : List Nat) : ∀ c : Nat, l.foldl max c = max c (l.foldl max 0) := by
  induction l with
  | nil => intro c; simp
  | cons x xs ih =>
    intro c
    show xs.foldl max (max c x) = max c ((x :: xs).foldl max 0)
    rw [ih (max c x)]
    show max (max c x) (xs.foldl max 0) = max c (xs.foldl max (max 0 x))
    rw [ih (max 0 x)]
    omega

theorem foldl_max_append (l1 l2 : List Nat) :
    (l1 ++ l2).foldl max 0 = max (l1.foldl max 0) (l2.foldl max 0) := by
  rw [List.foldl_append, foldl_max_init]

theorem foldl_max_range' (n a : Nat) : (List.range' a (n + 1)).foldl max 0 = a + n := by
  induction n generalizing a with
  | zero => simp [List.range']
  | succ n ih =>
    rw [List.range'_succ]
    show (List.range' (a + 1) (n + 1)).foldl max (max 0 a) = a + (n + 1)
    rw [foldl_max_init, ih (a + 1)]
    omega

theorem le_foldl_max (l : List Nat) (x : Nat) (h : x ∈ l) : x ≤ l.foldl max 0 := by
  induction l with
  | nil => exact absurd h (List.not_mem_nil x)
  | cons y ys ih =>
    show x ≤ ys.foldl max (max 0 y)
    rw [foldl_max_init]
    rcases List.mem_cons.mp h with rfl | h'
    · omega
    · have := ih h'
      omega

theorem le_maxKey_of_mem (m : Molecule) (k : Nat) (h : k ∈ keysOf m) : k ≤ maxKey m :=
  le_foldl_max (keysOf m) k h

theorem lookupNode_append_left (n1 n2 : List (Nat × Atom)) (es : List (Nat × Nat × Option Rat))
    (k : Nat) (h : (lookupNode ⟨n1, es⟩ k).isSome) :
    lookupNode (⟨n1 ++ n2, es⟩ : Molecule) k = lookupNode (⟨n1, es⟩ : Molecule) k := by
  unfold lookupNode at h ⊢
  rw [List.find?_append]
  cases hf : n1.find? (fun q => q.1 == k) with
  | none => rw [hf] at h; simp at h
  | some q => rfl

theorem lookupNode_append_right (n1 n2 : List (Nat × Atom)) (es : List (Nat × Nat × Option Rat))
    (k : Nat) (h : lookupNode (⟨n1, es⟩ : Molecule) k = none) :
    lookupNode (⟨n1 ++ n2, es⟩ : Molecule) k = lookupNode (⟨n2, es⟩ : Molecule) k := by
  unfold lookupNode at h ⊢
  rw [List.find?_append]
  rw [Option.map_eq_none'] at h
  rw [h]
  rfl

theorem lookupNode_hAtom_entries (ids : List Nat) (es : List (Nat × Nat × Option Rat))
    (j : Nat) (h : j ∈ ids) :
    lookupNode (⟨ids.map (fun i => (i, hAtom)), es⟩ : Molecule) j = some hAtom := by
  unfold lookupNode
  induction ids with
  | nil => exact absurd h (List.not_mem_nil j)
  | cons i rest ih =>
    by_cases hij : i = j
    · subst hij
      rw [List.map_cons, List.find?_cons_of_pos _ (by simp)]
      rfl
    · rcases List.mem_cons.mp h with rfl | h'
      · exact absurd rfl hij
      · rw [List.map_cons, List.find?_cons_of_neg _ (by simp [hij])]
        exact ih h'

theorem keysOf_append (n1 n2 : List (Nat × Atom)) (es : List (Nat × Nat × Option Rat)) :
    keysOf (⟨n1 ++ n2, es⟩ : Molecule)
      = keysOf (⟨n1, es⟩ : Molecule) ++ keysOf (⟨n2, es⟩ : Molecule) := by
  unfold keysOf
  simp [List.map_append]

theorem lookupNode_delHcount_eq (mol : Molecule) (k : Nat) :
    lookupNode (delHcount mol k) k = (lookupNode mol k).map (fun a => a.withHcount none) :=
  lookupNode_mapNode_eq mol k _

theorem lookupNode_delHcount_ne (mol : Molecule) (k j : Nat) (h : j ≠ k) :
    lookupNode (delHcount mol k) j = lookupNode mol j :=
  lookupNode_mapNode_ne mol k _ j h

theorem lookupNode_bumpHcount_eq (mol : Molecule) (k : Nat) :
    lookupNode (bumpHcount mol k) k
      = (lookupNode mol k).map (fun a => a.withHcount (some (a.hcount.getD 0 + 1))) :=
  lookupNode_mapNode_eq mol k _

theorem lookupNode_bumpHcount_ne (mol : Molecule) (k j : Nat) (h : j ≠ k) :
    lookupNode (bumpHcount mol k) j = lookupNode mol j :=
  lookupNode_mapNode_ne mol k _ j h

/-- The hcount (0 if absent) of a node of the original molecule, as a
natural number (Python `range` sees negative counts as 0). -/
def hofOrig (g : Molecule) (w : Nat) : Nat := ((atomOf g w).hcount.getD 0).toNat

/-- The loop invariant of `add_explicit_hydrogens` after processing the
prefix `Pr` of the original keys: the state consists of the original nodes
(hcount deleted on processed ones) followed by the hydrogen nodes created so
far (consecutive fresh keys), the original edges followed by one order-1
edge per created hydrogen to its parent, and each processed node `w` has
exactly `hcount(w)` created hydrogens. -/
def AddInv (g : Molecule) (Pr : List Nat) (s : Molecule) : Prop :=
  ∃ ext par : List Nat,
    keysOf s = keysOf g ++ ext ∧
    (∀ k ∈ keysOf g, lookupNode s k
      = (lookupNode g k).map (fun b => if k ∈ Pr then b.withHcount none else b)) ∧
    (∀ j ∈ ext, lookupNode s j = some hAtom) ∧
    s.edges = g.edges ++ (par.zip ext).map (fun pj => (pj.1, pj.2, some (1 : Rat))) ∧
    ext = List.range' (maxKey g + 1) ext.length ∧
    par.length = ext.length ∧
    (∀ x ∈ par, x ∈ Pr) ∧
    (∀ w : Nat, par.count w = if w ∈ Pr then hofOrig g w else 0)

theorem addInv_base (g : Molecule) : AddInv g [] g := by
  refine ⟨[], [], by simp, ?_, by simp, by simp, rfl, rfl, by simp, ?_⟩
  · intro k hk
    simp
  · intro w
    simp

theorem replicate_zip_map (x : Nat) : ∀ (ids : List Nat),
    ((List.replicate ids.length x).zip ids).map (fun pj => (pj.1, pj.2, some (1 : Rat)))
      = ids.map (fun j => (x, j, some (1 : Rat))) := by
  intro ids
  induction ids with
  | nil => rfl
  | cons j rest ih =>
    simp only [List.length_cons, List.replicate_succ, List.zip_cons_cons, List.map_cons]
    rw [ih]

theorem addInv_step (g : Molecule) (Pr : List Nat) (s : Molecule) (n : Nat)
    (hn : n ∈ keysOf g) (hnPr : n ∉ Pr) (hinv : AddInv g Pr s) :
    AddInv g (Pr ++ [n]) (addStep s n) := by
  obtain ⟨ext, par, hkeys, horig, hext, hedges, hrange, hlen, hparPr, hcount⟩ := hinv
  obtain ⟨ag, hag⟩ := lookup_isSome_of_mem g n hn
  have hsn : lookupNode s n = some ag := by
    rw [horig n hn, hag]
    simp [hnPr]
  have hnle : n ≤ maxKey g := le_maxKey_of_mem g n hn
  have hmaxs : maxKey s = maxKey g + ext.length := by
    show (keysOf s).foldl max 0 = maxKey g + ext.length
    rw [hkeys, foldl_max_append]
    cases hL : ext.length with
    | zero =>
      rw [hrange, hL]
      show max ((keysOf g).foldl max 0) ([].foldl max 0) = maxKey g + 0
      show max (maxKey g) ([].foldl max 0) = maxKey g + 0
      simp
    | succ L =>
      rw [hrange, hL, foldl_max_range']
      show max (maxKey g) (maxKey g + 1 + L) = maxKey g + (L + 1)
      omega
  set h0 : Nat := (ag.hcount.getD 0).toNat with hh0
  set ids : List Nat := List.range' (maxKey s + 1) h0 with hids
  have hidsmap : (List.range h0).map (fun i => maxKey s + 1 + i) = ids :=
    (List.range'_eq_map_range _ _).symm
  have hstep : addStep s n = delHcount
      ⟨s.nodes ++ ids.map (fun j => (j, hAtom)),
       s.edges ++ ids.map (fun j => (n, j, some (1 : Rat)))⟩ n := by
    unfold addStep
    rw [hsn]
    simp only [Option.isNone_some, Bool.false_eq_true, if_false, Option.getD_some]
    rw [hidsmap]
  rw [hstep]
  have hidsfresh : ∀ j ∈ ids, maxKey s + 1 ≤ j ∧ j < maxKey s + 1 + h0 := by
    intro j hj
    rw [hids] at hj
    exact List.mem_range'_1.mp hj
  have hextbound : ∀ j ∈ ext, maxKey g + 1 ≤ j ∧ j < maxKey g + 1 + ext.length := by
    intro j hj
    rw [hrange] at hj
    exact List.mem_range'_1.mp hj
  have hkeysle : ∀ k ∈ keysOf s, k ≤ maxKey s := le_maxKey_of_mem s
  have hXkeys : keysOf (⟨s.nodes ++ ids.map (fun j => (j, hAtom)),
      s.edges ++ ids.map (fun j => (n, j, some (1 : Rat)))⟩ : Molecule)
      = keysOf s ++ ids := by
    rw [keysOf_append]
    show keysOf s ++ (ids.map (fun j => (j, hAtom))).map (fun p => p.1) = keysOf s ++ ids
    rw [List.map_map]
    show keysOf s ++ ids.map (fun j => j) = keysOf s ++ ids
    rw [List.map_id']
  have hXlook_orig : ∀ k, (lookupNode s k).isSome →
      lookupNode (⟨s.nodes ++ ids.map (fun j => (j, hAtom)),
        s.edges ++ ids.map (fun j => (n, j, some (1 : Rat)))⟩ : Molecule) k
        = lookupNode s k := by
    intro k hk
    exact lookupNode_append_left s.nodes _ _ k hk
  have hXlook_ids : ∀ j ∈ ids,
      lookupNode (⟨s.nodes ++ ids.map (fun j => (j, hAtom)),
        s.edges ++ ids.map (fun j => (n, j, some (1 : Rat)))⟩ : Molecule) j
        = some hAtom := by
    intro j hj
    have hnotin : j ∉ keysOf s := by
      intro hmem
      have := hkeysle j hmem
      have := (hidsfresh j hj).1
      omega
    exact (lookupNode_append_right s.nodes (ids.map (fun j => (j, hAtom)))
      (s.edges ++ ids.map (fun j => (n, j, some (1 : Rat)))) j
      (lookupNode_eq_none_of_not_mem s j hnotin)).trans
      (lookupNode_hAtom_entries ids _ j hj)
  refine ⟨ext ++ ids, par ++ List.replicate h0 n, ?_, ?_, ?_, ?_, ?_, ?_, ?_, ?_⟩
  · -- keys
    show keysOf (mapNode _ n _) = _
    rw [keysOf_mapNode, hXkeys, hkeys, List.append_assoc]
  · -- original nodes
    intro k hk
    by_cases hkn : k = n
    · subst hkn
      rw [lookupNode_delHcount_eq, hXlook_orig k (by rw [hsn]; rfl), hsn, hag]
      simp [List.mem_append]
    · rw [lookupNode_delHcount_ne _ n k hkn]
      have hsk : (lookupNode s k).isSome := by
        rw [horig k hk]
        obtain ⟨b, hb⟩ := lookup_isSome_of_mem g k hk
        rw [hb]
        rfl
      rw [hXlook_orig k hsk, horig k hk]
      have : (k ∈ Pr ++ [n]) ↔ (k ∈ Pr) := by simp [List.mem_append, hkn]
      by_cases hkPr : k ∈ Pr <;> simp [hkPr, this]
  · -- ext nodes
    intro j hj
    rcases List.mem_append.mp hj with hjext | hjids
    · have hjn : j ≠ n := by
        have := (hextbound j hjext).1
        omega
      rw [lookupNode_delHcount_ne _ n j hjn]
      rw [hXlook_orig j (by rw [hext j hjext]; rfl)]
      exact hext j hjext
    · have hjn : j ≠ n := by
        have h1 := (hidsfresh j hjids).1
        have : n ≤ maxKey s := by omega
        omega
      rw [lookupNode_delHcount_ne _ n j hjn]
      exact hXlook_ids j hjids
  · -- edges
    show (⟨s.nodes ++ ids.map (fun j => (j, hAtom)),
      s.edges ++ ids.map (fun j => (n, j, some (1 : Rat)))⟩ : Molecule).edges = _
    show s.edges ++ ids.map (fun j => (n, j, some (1 : Rat))) = _
    rw [hedges, List.zip_append hlen, List.map_append, List.append_assoc]
    congr 1
    congr 1
    rw [show (List.replicate h0 n).zip ids = (List.replicate ids.length n).zip ids from by
      rw [hids, List.length_range']]
    exact (replicate_zip_map n ids).symm
  · -- range structure
    rw [hrange]
    show List.range' (maxKey g + 1) ext.length ++ ids
      = List.range' (maxKey g + 1) (List.range' (maxKey g + 1) ext.length ++ ids).length
    rw [hids, hmaxs]
    rw [show maxKey g + ext.length + 1 = maxKey g + 1 + 1 * ext.length from by omega]
    rw [List.range'_append]
    simp [List.length_range']
  · -- lengths
    simp only [List.length_append, List.length_replicate, hlen, hids, List.length_range']
  · -- parents processed
    intro x hx
    rcases List.mem_append.mp hx with hx | hx
    · exact List.mem_append.mpr (Or.inl (hparPr x hx))
    · rw [List.eq_of_mem_replicate hx]
      simp
  · -- counts
    intro w
    rw [List.count_append, List.count_replicate]
    by_cases hwn : w = n
    · subst hwn
      rw [hcount w, if_neg hnPr, if_pos (by simp)]
      rw [if_pos (show w ∈ Pr ++ [w] by simp)]
      show 0 + h0 = hofOrig g w
      rw [hh0]
      unfold hofOrig atomOf
      rw [hag]
      simp
    · rw [hcount w]
      have hiff : (w ∈ Pr ++ [n]) ↔ (w ∈ Pr) := by simp [List.mem_append, hwn]
      rw [if_neg (by simp [Ne.symm hwn] : ¬((n == w) = true))]
      by_cases hwPr : w ∈ Pr <;> simp [hwPr, hiff]

theorem addFold_inv (g : Molecule) (hwfK : (keysOf g).Nodup) :
    ∀ (R Pr : List Nat) (s : Molecule), keysOf g = Pr ++ R → AddInv g Pr s →
    AddInv g (Pr ++ R) (R.foldl addStep s) := by
  intro R
  induction R with
  | nil =>
    intro Pr s hsplit hinv
    simpa using hinv
  | cons n R' ih =>
    intro Pr s hsplit hinv
    have hn : n ∈ keysOf g := by rw [hsplit]; simp
    have hnPr : n ∉ Pr := by
      have hd := hwfK
      rw [hsplit] at hd
      obtain ⟨-, -, hdisj⟩ := List.nodup_append.mp hd
      intro hmem
      exact hdisj hmem (List.mem_cons_self n R')
    have hstep := addInv_step g Pr s n hn hnPr hinv
    have hres := ih (Pr ++ [n]) (addStep s n) (by rw [hsplit]; simp) hstep
    show AddInv g (Pr ++ n :: R') ((n :: R').foldl addStep s)
    have heq : Pr ++ [n] ++ R' = Pr ++ n :: R' := by simp
    rw [heq] at hres
    exact hres

theorem add_explicit_hydrogens_inv (g : Molecule) (hwfK : (keysOf g).Nodup) :
    AddInv g (keysOf g) (add_explicit_hydrogens g) := by
  have h := addFold_inv g hwfK (keysOf g) [] g rfl (addInv_base g)
  simpa using h

/-- Equality of two atom records up to the hcount attribute. -/
def sameExceptHcount (a b : Atom) : Prop :=
  a.element = b.element ∧ a.charge = b.charge ∧ a.aromatic = b.aromatic ∧
  a.isotope = b.isotope ∧ a.cls = b.cls ∧ a.stereo = b.stereo

/-- Two molecules with the same edges and nodes, whose atoms may differ only
in their hydrogen counts (the removal scan bumps those as it goes). -/
def SameShape (m₁ m₂ : Molecule) : Prop :=
  m₁.edges = m₂.edges ∧
  (∀ k, lookupNode m₁ k = none ↔ lookupNode m₂ k = none) ∧
  (∀ k a b, lookupNode m₁ k = some a → lookupNode m₂ k = some b → sameExceptHcount a b)

theorem sameShape_refl (m : Molecule) : SameShape m m :=
  ⟨rfl, fun _ => Iff.rfl, fun k a b h1 h2 => by
    rw [h1] at h2
    cases h2
    exact ⟨rfl, rfl, rfl, rfl, rfl, rfl⟩⟩

theorem sameShape_bump (m₁ m₂ : Molecule) (w : Nat) (h : SameShape m₁ m₂) :
    SameShape (bumpHcount m₁ w) m₂ := by
  obtain ⟨hE, hN, hA⟩ := h
  refine ⟨hE, ?_, ?_⟩
  · intro k
    by_cases hkw : k = w
    · subst hkw
      rw [lookupNode_bumpHcount_eq]
      rw [← hN k]
      cases lookupNode m₁ k <;> simp
    · rw [lookupNode_bumpHcount_ne _ w k hkw]
      exact hN k
  · intro k a b h1 h2
    by_cases hkw : k = w
    · subst hkw
      rw [lookupNode_bumpHcount_eq] at h1
      cases hm : lookupNode m₁ k with
      | none => rw [hm] at h1; exact absurd h1 (by simp)
      | some a1 =>
        rw [hm] at h1
        simp only [Option.map_some', Option.some.injEq] at h1
        subst h1
        exact hA k a1 b hm h2
    · rw [lookupNode_bumpHcount_ne _ w k hkw] at h1
      exact hA k a b h1 h2

theorem neighbors_congr (m₁ m₂ : Molecule) (k : Nat) (hE : m₁.edges = m₂.edges) :
    neighbors m₁ k = neighbors m₂ k := by
  unfold neighbors
  rw [hE]

theorem edgeOrderBetween_congr (m₁ m₂ : Molecule) (u v : Nat) (hE : m₁.edges = m₂.edges) :
    edgeOrderBetween m₁ u v = edgeOrderBetween m₂ u v := by
  unfold edgeOrderBetween
  rw [hE]

theorem atomOf_element_congr (m₁ m₂ : Molecule)
    (hN : ∀ k, lookupNode m₁ k = none ↔ lookupNode m₂ k = none)
    (hA : ∀ k a b, lookupNode m₁ k = some a → lookupNode m₂ k = some b → sameExceptHcount a b)
    (x : Nat) : (atomOf m₁ x).element = (atomOf m₂ x).element := by
  unfold atomOf
  cases h1 : lookupNode m₁ x with
  | none =>
    rw [(hN x).mp h1]
  | some a =>
    cases h2 : lookupNode m₂ x with
    | none => exact absurd ((hN x).mpr h2) (by simp [h1])
    | some b => exact (hA x a b h1 h2).1

theorem isSimpleH_congr (m₁ m₂ : Molecule) (h : SameShape m₁ m₂) (n : Nat) :
    isSimpleH m₁ n = isSimpleH m₂ n := by
  obtain ⟨hE, hN, hA⟩ := h
  unfold isSimpleH
  cases h1 : lookupNode m₁ n with
  | none =>
    rw [(hN n).mp h1]
    simp
  | some a =>
    cases h2 : lookupNode m₂ n with
    | none => exact absurd ((hN n).mpr h2) (by simp [h1])
    | some b =>
      obtain ⟨he, hc, har, hi, hcl, hst⟩ := hA n a b h1 h2
      simp only [Option.isNone_some, Bool.false_eq_true, if_false, Option.getD_some]
      rw [he, hc, hi, hcl, neighbors_congr m₁ m₂ n hE,
        atomOf_element_congr m₁ m₂ hN hA ((neighbors m₂ n).headD 0),
        edgeOrderBetween_congr m₁ m₂ n ((neighbors m₂ n).headD 0) hE]

/-- The effect of `c` successive hcount bumps on a stored node record. -/
def bumpN (o : Option Atom) (c : Nat) : Option Atom :=
  if c = 0 then o else o.map (fun a => a.withHcount (some (a.hcount.getD 0 + (c : Int))))

theorem bumpN_succ (o : Option Atom) (c : Nat) :
    bumpN (o.map (fun a => a.withHcount (some (a.hcount.getD 0 + 1)))) c = bumpN o (c + 1) := by
  unfold bumpN
  cases o with
  | none => by_cases hc : c = 0 <;> simp [hc]
  | some a =>
    by_cases hc : c = 0
    · subst hc
      simp
    · rw [if_neg hc, if_neg (by omega : ¬(c + 1 = 0))]
      simp only [Option.map_some', Option.some.injEq]
      show a.withHcount (some (a.hcount.getD 0 + 1 + (c : Int)))
        = a.withHcount (some (a.hcount.getD 0 + ((c : Nat) + 1 : Nat)))
      congr 2
      push_cast
      ring

/-- Whether scanning node `n` bumps the hcount of node `u`: `n` is a simple
hydrogen whose unique neighbor is `u`. -/
def bumpTrigger (g₁ : Molecule) (u n : Nat) : Bool :=
  isSimpleH g₁ n && ((neighbors g₁ n).headD 0 == u)

theorem removeScan_spec (g₁ : Molecule) : ∀ (R : List Nat) (m : Molecule) (rem : List Nat),
    SameShape m g₁ →
    SameShape (R.foldl removeStep (m, rem)).1 g₁ ∧
    (R.foldl removeStep (m, rem)).2 = rem ++ R.filter (fun n => isSimpleH g₁ n) ∧
    (∀ u, lookupNode (R.foldl removeStep (m, rem)).1 u
      = bumpN (lookupNode m u) (R.filter (fun n => bumpTrigger g₁ u n)).length) := by
  intro R
  induction R with
  | nil =>
    intro m rem hS
    exact ⟨hS, by simp, fun u => by simp [bumpN]⟩
  | cons n R' ih =>
    intro m rem hS
    by_cases ht : isSimpleH g₁ n
    · have hm : isSimpleH m n = true := by rw [isSimpleH_congr m g₁ hS n]; exact ht
      have hstep : removeStep (m, rem) n
          = (bumpHcount m ((neighbors g₁ n).headD 0), rem ++ [n]) := by
        unfold removeStep
        rw [if_pos hm]
        rw [neighbors_congr m g₁ n hS.1]
      simp only [List.foldl_cons]
      rw [hstep]
      obtain ⟨hS', hrem', hcnt'⟩ :=
        ih (bumpHcount m ((neighbors g₁ n).headD 0)) (rem ++ [n]) (sameShape_bump m g₁ _ hS)
      refine ⟨hS', ?_, ?_⟩
      · rw [hrem', List.filter_cons_of_pos (by simpa using ht)]
        simp
      · intro u
        rw [hcnt' u]
        by_cases hu : (neighbors g₁ n).headD 0 = u
        · subst hu
          rw [lookupNode_bumpHcount_eq]
          rw [List.filter_cons_of_pos (by simp [bumpTrigger, ht])]
          rw [List.length_cons, bumpN_succ]
        · rw [lookupNode_bumpHcount_ne _ _ u (fun h => hu h.symm)]
          rw [List.filter_cons_of_neg (by
            simp only [bumpTrigger, Bool.and_eq_true, beq_iff_eq, not_and]
            exact fun _ => hu)]
    · have hm : isSimpleH m n = false := by
        rw [isSimpleH_congr m g₁ hS n]
        simpa using ht
      have hstep : removeStep (m, rem) n = (m, rem) := by
        unfold removeStep
        rw [hm]
        simp
      simp only [List.foldl_cons]
      rw [hstep]
      obtain ⟨hS', hrem', hcnt'⟩ := ih m rem hS
      refine ⟨hS', ?_, ?_⟩
      · rw [hrem', List.filter_cons_of_neg (by simpa using ht)]
      · intro u
        rw [hcnt' u, List.filter_cons_of_neg (by simp [bumpTrigger, ht])]

theorem lookupNode_removeNodes_not_mem (m : Molecule) (rem : List Nat) (u : Nat)
    (hu : u ∉ rem) : lookupNode (removeNodes m rem) u = lookupNode m u := by
  obtain ⟨ns, es⟩ := m
  show lookupNode (⟨ns.filter (fun p => !(rem.contains p.1)), _⟩ : Molecule) u
    = lookupNode (⟨ns, es⟩ : Molecule) u
  unfold lookupNode
  induction ns with
  | nil => rfl
  | cons p l ihl =>
    by_cases hpu : p.1 = u
    · have hkeep : (!(rem.contains p.1)) = true := by
        subst hpu
        simp only [Bool.not_eq_true']
        rw [← Bool.not_eq_true]
        intro hc
        exact hu (by simpa using hc)
      rw [List.filter_cons, if_pos hkeep]
      rw [List.find?_cons_of_pos _ (by simp [hpu]), List.find?_cons_of_pos _ (by simp [hpu])]
    · by_cases hkeep : (!(rem.contains p.1)) = true
      · rw [List.filter_cons, if_pos hkeep]
        rw [List.find?_cons_of_neg _ (by simp [hpu]), List.find?_cons_of_neg _ (by simp [hpu])]
        exact ihl
      · rw [List.filter_cons, if_neg hkeep]
        rw [List.find?_cons_of_neg _ (by simp [hpu])]
        exact ihl

theorem removeNodes_edges (m : Molecule) (rem : List Nat) :
    (removeNodes m rem).edges
      = m.edges.filter (fun e => !(rem.contains e.1) && !(rem.contains e.2.1)) := rfl

theorem lookupNode_map_entries (ns : List (Nat × Atom)) (es es' : List (Nat × Nat × Option Rat))
    (φ : Nat × Atom → Nat × Atom) (ζ : Atom → Atom)
    (hφ : ∀ p, (φ p).1 = p.1 ∧ (φ p).2 = ζ p.2) (u : Nat) :
    lookupNode (⟨ns.map φ, es⟩ : Molecule) u = (lookupNode (⟨ns, es'⟩ : Molecule) u).map ζ := by
  unfold lookupNode
  induction ns with
  | nil => rfl
  | cons p l ihl =>
    by_cases hpu : p.1 = u
    · rw [List.map_cons, List.find?_cons_of_pos _ (by simp [(hφ p).1, hpu]),
        List.find?_cons_of_pos _ (by simp [hpu])]
      simp [(hφ p).2]
    · rw [List.map_cons, List.find?_cons_of_neg _ (by simp [(hφ p).1, hpu]),
        List.find?_cons_of_neg _ (by simp [hpu])]
      exact ihl

theorem lookupNode_ensureHcounts (m : Molecule) (u : Nat) :
    lookupNode (ensureHcounts m) u = (lookupNode m u).map
      (fun a => if a.hcount == none then a.withHcount (some 0) else a) := by
  obtain ⟨ns, es⟩ := m
  exact lookupNode_map_entries ns es es _ _
    (fun p => by by_cases hc : p.2.hcount == none <;> simp [ensureHcounts, hc]) u

/-- The created hydrogen keys attached to parent `u`, read off from the
parent/child pairing of `AddInv`. -/
def childrenOf (par ext : List Nat) (u : Nat) : List Nat :=
  (par.zip ext).filterMap (fun pj => if pj.1 == u then some pj.2 else none)

theorem neighbors_edges_append (ns : List (Nat × Atom))
    (e1 e2 : List (Nat × Nat × Option Rat)) (k : Nat) :
    neighbors (⟨ns, e1 ++ e2⟩ : Molecule) k
      = neighbors (⟨ns, e1⟩ : Molecule) k ++ neighbors (⟨ns, e2⟩ : Molecule) k := by
  unfold neighbors
  exact List.filterMap_append _ _ _

theorem neighbors_zipmap_parent (ns : List (Nat × Atom)) (par ext : List Nat) (u : Nat)
    (hu : ∀ j ∈ ext, j ≠ u) :
    neighbors (⟨ns, (par.zip ext).map (fun pj => (pj.1, pj.2, some (1 : Rat)))⟩ : Molecule) u
      = childrenOf par ext u := by
  unfold neighbors childrenOf
  rw [List.filterMap_map]
  apply List.filterMap_congr
  intro pj hpj
  have hj : pj.2 ∈ ext := (List.of_mem_zip hpj).2
  show (if pj.1 == u then some pj.2 else if pj.2 == u then some pj.1 else none)
    = if pj.1 == u then some pj.2 else none
  by_cases h1 : pj.1 = u
  · simp [h1]
  · simp [h1, hu pj.2 hj]

theorem neighbors_fresh_none (ns : List (Nat × Atom)) (es : List (Nat × Nat × Option Rat))
    (c : Nat) (h : ∀ e ∈ es, e.1 ≠ c ∧ e.2.1 ≠ c) :
    neighbors (⟨ns, es⟩ : Molecule) c = [] := by
  unfold neighbors
  rw [List.filterMap_eq_nil_iff]
  intro e he
  rw [if_neg (by simp [(h e he).1]), if_neg (by simp [(h e he).2])]

theorem zip_filterMap_unique (j p0 : Nat) : ∀ (Z : List (Nat × Nat)),
    (Z.map Prod.snd).Nodup → (∀ q ∈ Z, q.1 ∉ Z.map Prod.snd) → (p0, j) ∈ Z →
    Z.filterMap (fun pj => if pj.1 == j then some pj.2
      else if pj.2 == j then some pj.1 else none) = [p0] := by
  intro Z
  induction Z with
  | nil => intro _ _ h; exact absurd h (List.not_mem_nil _)
  | cons q Z' ih =>
    intro hnd hfresh hmem
    have hndtail : (Z'.map Prod.snd).Nodup := (List.nodup_cons.mp (by simpa using hnd)).2
    have hq2 : q.2 ∉ Z'.map Prod.snd := (List.nodup_cons.mp (by simpa using hnd)).1
    rcases List.mem_cons.mp hmem with heq | htail
    · subst heq
      have hq2n : j ∉ Z'.map Prod.snd := hq2
      have hfr := hfresh (p0, j) (List.mem_cons_self _ _)
      have hp0j : p0 ≠ j := by
        intro hc
        exact hfr (by rw [hc]; simp)
      have htl : Z'.filterMap (fun pj => if pj.1 == j then some pj.2
          else if pj.2 == j then some pj.1 else none) = [] := by
        rw [List.filterMap_eq_nil_iff]
        intro e he
        have he2 : e.2 ≠ j := by
          intro hc
          exact hq2n (by rw [← hc]; exact List.mem_map_of_mem Prod.snd he)
        have he1 : e.1 ≠ j := by
          intro hc
          have h3 := hfresh e (List.mem_cons_of_mem _ he)
          rw [hc] at h3
          exact h3 (by simp)
        simp [he1, he2]
      have hstep : List.filterMap (fun pj : Nat × Nat => if pj.1 == j then some pj.2
          else if pj.2 == j then some pj.1 else none) ((p0, j) :: Z')
          = p0 :: Z'.filterMap (fun pj => if pj.1 == j then some pj.2
            else if pj.2 == j then some pj.1 else none) := by
        simp [hp0j]
      rw [hstep, htl]
    · have hq2j : q.2 ≠ j := by
        intro hc
        rw [← hc] at htail
        have hm := List.mem_map_of_mem Prod.snd htail
        exact hq2 hm
      have hq1j : q.1 ≠ j := by
        intro hc
        have h3 := hfresh q (List.mem_cons_self q Z')
        rw [hc] at h3
        exact h3 (List.mem_cons_of_mem _ (List.mem_map_of_mem Prod.snd htail))
      have hstep : List.filterMap (fun pj : Nat × Nat => if pj.1 == j then some pj.2
          else if pj.2 == j then some pj.1 else none) (q :: Z')
          = Z'.filterMap (fun pj => if pj.1 == j then some pj.2
            else if pj.2 == j then some pj.1 else none) := by
        simp [hq1j, hq2j]
      rw [hstep]
      exact ih hndtail
        (fun r hr hmem' => hfresh r (List.mem_cons_of_mem q hr)
          (List.mem_cons_of_mem _ hmem')) htail

theorem mem_neighbors_iff (m : Molecule) (k x : Nat) :
    x ∈ neighbors m k ↔ ∃ e ∈ m.edges, (e.1 = k ∧ e.2.1 = x) ∨ (e.2.1 = k ∧ e.1 = x) := by
  unfold neighbors
  rw [List.mem_filterMap]
  constructor
  · rintro ⟨e, he, hfe⟩
    refine ⟨e, he, ?_⟩
    by_cases h1 : e.1 = k
    · rw [if_pos (by simp [h1])] at hfe
      exact Or.inl ⟨h1, Option.some.inj hfe⟩
    · rw [if_neg (by simp [h1])] at hfe
      by_cases h2 : e.2.1 = k
      · rw [if_pos (by simp [h2])] at hfe
        exact Or.inr ⟨h2, Option.some.inj hfe⟩
      · rw [if_neg (by simp [h2])] at hfe
        exact absurd hfe (by simp)
  · rintro ⟨e, he, h | h⟩
    · exact ⟨e, he, by rw [if_pos (by simp [h.1]), h.2]⟩
    · refine ⟨e, he, ?_⟩
      by_cases h1 : e.1 = k
      · rw [if_pos (by simp [h1]), h.1, ← h.2, h1]
      · rw [if_neg (by simp [h1]), if_pos (by simp [h.1]), h.2]

theorem mem_neighbors_symm (m : Molecule) (k x : Nat) :
    x ∈ neighbors m k ↔ k ∈ neighbors m x := by
  rw [mem_neighbors_iff, mem_neighbors_iff]
  constructor
  · rintro ⟨e, he, h | h⟩
    · exact ⟨e, he, Or.inr ⟨h.2, h.1⟩⟩
    · exact ⟨e, he, Or.inl ⟨h.2, h.1⟩⟩
  · rintro ⟨e, he, h | h⟩
    · exact ⟨e, he, Or.inr ⟨h.2, h.1⟩⟩
    · exact ⟨e, he, Or.inl ⟨h.2, h.1⟩⟩

theorem neighbors_decomp (m : Molecule) (e1 e2 : List (Nat × Nat × Option Rat))
    (h : m.edges = e1 ++ e2) (k : Nat) :
    neighbors m k
      = neighbors (⟨[], e1⟩ : Molecule) k ++ neighbors (⟨[], e2⟩ : Molecule) k := by
  unfold neighbors
  rw [h]
  exact List.filterMap_append _ _ _

theorem edgeOrderBetween_eq_one (m : Molecule) (x y : Nat)
    (h : ∀ e ∈ m.edges,
      ((e.1 == x && e.2.1 == y) || (e.1 == y && e.2.1 == x)) = true → e.2.2 = some 1) :
    edgeOrderBetween m x y = 1 := by
  unfold edgeOrderBetween
  cases hf : m.edges.find? (fun e => (e.1 == x && e.2.1 == y) || (e.1 == y && e.2.1 == x)) with
  | none => rfl
  | some e =>
    have hp : ((e.1 == x && e.2.1 == y) || (e.1 == y && e.2.1 == x)) = true := by
      have h2 := List.find?_some hf
      simpa using h2
    show e.2.2.getD 1 = 1
    rw [h e (List.mem_of_find?_eq_some hf) hp]
    rfl

theorem zip_filterMap_sublist (u : Nat) : ∀ (Z : List (Nat × Nat)),
    (Z.filterMap (fun pj => if pj.1 == u then some pj.2 else none)).Sublist
      (Z.map Prod.snd) := by
  intro Z
  induction Z with
  | nil => simp
  | cons q Z' ih =>
    by_cases hq : q.1 = u
    · have hstep : List.filterMap
          (fun pj : Nat × Nat => if pj.1 == u then some pj.2 else none) (q :: Z')
          = q.2 :: Z'.filterMap (fun pj => if pj.1 == u then some pj.2 else none) := by
        simp [hq]
      rw [hstep, List.map_cons]
      exact ih.cons₂ q.2
    · have hstep : List.filterMap
          (fun pj : Nat × Nat => if pj.1 == u then some pj.2 else none) (q :: Z')
          = Z'.filterMap (fun pj => if pj.1 == u then some pj.2 else none) := by
        simp [hq]
      rw [hstep, List.map_cons]
      exact ih.cons q.2

theorem zip_filterMap_length (u : Nat) : ∀ (Z : List (Nat × Nat)),
    (Z.filterMap (fun pj => if pj.1 == u then some pj.2 else none)).length
      = (Z.map Prod.fst).count u := by
  intro Z
  induction Z with
  | nil => rfl
  | cons q Z' ih =>
    by_cases hq : q.1 = u
    · have hstep : List.filterMap
          (fun pj : Nat × Nat => if pj.1 == u then some pj.2 else none) (q :: Z')
          = q.2 :: Z'.filterMap (fun pj => if pj.1 == u then some pj.2 else none) := by
        simp [hq]
      rw [hstep, List.map_cons, List.length_cons, ih, List.count_cons]
      simp [hq]
    · have hstep : List.filterMap
          (fun pj : Nat × Nat => if pj.1 == u then some pj.2 else none) (q :: Z')
          = Z'.filterMap (fun pj => if pj.1 == u then some pj.2 else none) := by
        simp [hq]
      rw [hstep, List.map_cons, ih, List.count_cons]
      simp [hq]

theorem mem_childrenOf (par ext : List Nat) (u n : Nat) :
    n ∈ childrenOf par ext u ↔ (u, n) ∈ par.zip ext := by
  unfold childrenOf
  rw [List.mem_filterMap]
  constructor
  · rintro ⟨pj, hpj, hf⟩
    by_cases h1 : pj.1 = u
    · rw [if_pos (by simp [h1])] at hf
      have h2 := Option.some.inj hf
      rw [← h1, ← h2]
      exact hpj
    · rw [if_neg (by simp [h1])] at hf
      exact absurd hf (by simp)
  · intro h
    exact ⟨(u, n), h, by simp⟩

theorem filter_mem_of_sublist (s l : List Nat) (hsub : s.Sublist l) : l.Nodup →
    l.filter (fun x => decide (x ∈ s)) = s := by
  induction hsub with
  | slnil => intro _; rfl
  | @cons s' l' a hsub ih =>
    intro hnd
    have ha : a ∉ l' := (List.nodup_cons.mp hnd).1
    have has : a ∉ s' := fun hc => ha (hsub.subset hc)
    rw [List.filter_cons, if_neg (by simp [has])]
    exact ih (List.nodup_cons.mp hnd).2
  | @cons₂ s' l' a hsub ih =>
    intro hnd
    have ha : a ∉ l' := (List.nodup_cons.mp hnd).1
    rw [List.filter_cons, if_pos (by simp)]
    have hcong : l'.filter (fun x => decide (x ∈ a :: s'))
        = l'.filter (fun x => decide (x ∈ s')) := by
      apply List.filter_congr
      intro x hx
      have hxa : x ≠ a := fun hc => ha (hc ▸ hx)
      simp [List.mem_cons, hxa]
    rw [hcong]
    rw [ih (List.nodup_cons.mp hnd).2]

theorem fresh_ne_key (g : Molecule) (ext : List Nat)
    (hrange : ext = List.range' (maxKey g + 1) ext.length) :
    ∀ j ∈ ext, ∀ k ∈ keysOf g, k ≠ j := by
  intro j hj k hk hc
  rw [hrange, List.mem_range'_1] at hj
  have h1 := le_maxKey_of_mem g k hk
  omega

theorem isSimpleH_facts (mol : Molecule) (n : Nat) (b : Atom)
    (hb : lookupNode mol n = some b) (hs : isSimpleH mol n = true) :
    b.element.getD "" = "H" ∧ (neighbors mol n).length = 1 := by
  unfold isSimpleH at hs
  rw [hb] at hs
  simp only [Option.isNone_some, Bool.false_eq_true, if_false, Option.getD_some,
    Bool.and_eq_true, beq_iff_eq] at hs
  refine ⟨?_, ?_⟩ <;> tauto

/-- C9 (amended): `add_explicit_hydrogens` followed by `remove_explicit_hydrogens`
restores the original stored hcount of every atom whose element is not hydrogen,
whose stored hcount is non-negative, and none of whose original neighbors is
itself a hydrogen-element atom, provided the graph is well-formed (distinct node
keys, edges between existing nodes). -/
theorem add_remove_roundtrip (g : Molecule) (u : Nat) (a : Atom) (h : Int)
    (hnd : (keysOf g).Nodup)
    (hwf : ∀ e ∈ g.edges, e.1 ∈ keysOf g ∧ e.2.1 ∈ keysOf g)
    (hu : lookupNode g u = some a)
    (hel : a.element.getD "" ≠ "H")
    (hhc : a.hcount = some h)
    (hpos : 0 ≤ h)
    (hnbr : ∀ v ∈ neighbors g u, (atomOf g v).element.getD "" ≠ "H") :
    (atomOf (remove_explicit_hydrogens (add_explicit_hydrogens g)) u).hcount = some h := by
  obtain ⟨ext, par, hkeys, horig, hext, hedges, hrange, hlen, hparPr, hcount⟩ :=
    add_explicit_hydrogens_inv g hnd
  set g₁ := add_explicit_hydrogens g with hg₁def
  have humem : u ∈ keysOf g := lookupNode_mem_keys g u a hu
  have hfresh := fresh_ne_key g ext hrange
  have hextnd : ext.Nodup := by
    rw [hrange]
    exact List.nodup_range' _ _ _ one_pos
  have hg₁u : lookupNode g₁ u = some (a.withHcount none) := by
    rw [horig u humem, hu]
    simp [humem]
  obtain ⟨hSh, hrem, hcnt⟩ := removeScan_spec g₁ (keysOf g₁) g₁ [] (sameShape_refl g₁)
  have hfilter1 : (keysOf g).filter (fun n => bumpTrigger g₁ u n) = [] := by
    rw [List.filter_eq_nil_iff]
    intro n hn htr
    simp only [bumpTrigger, Bool.and_eq_true, beq_iff_eq] at htr
    obtain ⟨hsi, hhd⟩ := htr
    obtain ⟨bg, hbg⟩ := lookup_isSome_of_mem g n hn
    have hg₁n : lookupNode g₁ n = some (bg.withHcount none) := by
      rw [horig n hn, hbg]
      simp [hn]
    have hfacts := isSimpleH_facts g₁ n (bg.withHcount none) hg₁n hsi
    obtain ⟨x, hx⟩ := List.length_eq_one.mp hfacts.2
    have hhd' : x = u := by
      rw [hx] at hhd
      simpa using hhd
    have humem' : u ∈ neighbors g₁ n := by
      rw [hx, ← hhd']
      exact List.mem_cons_self _ _
    rw [neighbors_decomp g₁ g.edges
      ((par.zip ext).map (fun pj => (pj.1, pj.2, some (1 : Rat)))) hedges n,
      List.mem_append] at humem'
    rcases humem' with hA | hB
    · have hnu : n ∈ neighbors g u :=
        (mem_neighbors_symm (⟨[], g.edges⟩ : Molecule) n u).mp hA
      have hne := hnbr n hnu
      apply hne
      unfold atomOf
      rw [hbg]
      have he1 := hfacts.1
      simpa [Atom.withHcount] using he1
    · rw [mem_neighbors_iff] at hB
      obtain ⟨e, heZ, hcase⟩ := hB
      rw [List.mem_map] at heZ
      obtain ⟨pj, hpj, rfl⟩ := heZ
      have hp2 : pj.2 ∈ ext := (List.of_mem_zip hpj).2
      rcases hcase with ⟨h1, h2⟩ | ⟨h1, h2⟩
      · exact hfresh pj.2 hp2 u humem h2.symm
      · exact hfresh pj.2 hp2 n hn h1.symm
  have hchar : ∀ n ∈ ext, bumpTrigger g₁ u n = decide (n ∈ childrenOf par ext u) := by
    intro n hnExt
    have hg₁n : lookupNode g₁ n = some hAtom := hext n hnExt
    by_cases hmem : n ∈ childrenOf par ext u
    · rw [decide_eq_true hmem]
      have hzip : (u, n) ∈ par.zip ext := (mem_childrenOf par ext u n).mp hmem
      have hA : neighbors (⟨[], g.edges⟩ : Molecule) n = [] := by
        apply neighbors_fresh_none
        intro e he
        exact ⟨hfresh n hnExt e.1 (hwf e he).1, hfresh n hnExt e.2.1 (hwf e he).2⟩
      have hB : neighbors
          (⟨[], (par.zip ext).map (fun pj => (pj.1, pj.2, some (1 : Rat)))⟩ : Molecule) n
          = [u] := by
        show ((par.zip ext).map (fun pj => (pj.1, pj.2, some (1 : Rat)))).filterMap
          (fun e => if e.1 == n then some e.2.1
            else if e.2.1 == n then some e.1 else none) = [u]
        rw [List.filterMap_map]
        have hco : ((fun e : Nat × Nat × Option Rat =>
            if e.1 == n then some e.2.1 else if e.2.1 == n then some e.1 else none)
            ∘ (fun pj : Nat × Nat => (pj.1, pj.2, some (1 : Rat))))
            = (fun pj : Nat × Nat => if pj.1 == n then some pj.2
                else if pj.2 == n then some pj.1 else none) := rfl
        rw [hco]
        apply zip_filterMap_unique n u (par.zip ext)
        · rw [List.map_snd_zip par ext (le_of_eq hlen.symm)]
          exact hextnd
        · intro q hq hqmem
          rw [List.map_snd_zip par ext (le_of_eq hlen.symm)] at hqmem
          exact hfresh q.1 hqmem q.1 (hparPr q.1 (List.of_mem_zip hq).1) rfl
        · exact hzip
      have hnbrn : neighbors g₁ n = [u] := by
        rw [neighbors_decomp g₁ g.edges
          ((par.zip ext).map (fun pj => (pj.1, pj.2, some (1 : Rat)))) hedges n,
          hA, hB]
        rfl
      have horder : edgeOrderBetween g₁ n u = 1 := by
        apply edgeOrderBetween_eq_one
        intro e he hpred
        rw [hedges] at he
        rcases List.mem_append.mp he with hge | hZ
        · exfalso
          simp only [Bool.or_eq_true, Bool.and_eq_true, beq_iff_eq] at hpred
          rcases hpred with ⟨h1, _⟩ | ⟨_, h2⟩
          · exact hfresh n hnExt e.1 (hwf e hge).1 h1
          · exact hfresh n hnExt e.2.1 (hwf e hge).2 h2
        · rw [List.mem_map] at hZ
          obtain ⟨pj, _, rfl⟩ := hZ
          rfl
      have hatomu : (atomOf g₁ u).element.getD "" = a.element.getD "" := by
        unfold atomOf
        rw [hg₁u]
        rfl
      simp [bumpTrigger, isSimpleH, hg₁n, hnbrn, hAtom, hatomu, hel, horder]
    · rw [decide_eq_false hmem]
      cases hb : bumpTrigger g₁ u n with
      | false => rfl
      | true =>
        exfalso
        simp only [bumpTrigger, Bool.and_eq_true, beq_iff_eq] at hb
        obtain ⟨hsi, hhd⟩ := hb
        have hfacts := isSimpleH_facts g₁ n hAtom hg₁n hsi
        obtain ⟨x, hx⟩ := List.length_eq_one.mp hfacts.2
        have hhd' : x = u := by
          rw [hx] at hhd
          simpa using hhd
        have humem' : u ∈ neighbors g₁ n := by
          rw [hx, ← hhd']
          exact List.mem_cons_self _ _
        rw [neighbors_decomp g₁ g.edges
          ((par.zip ext).map (fun pj => (pj.1, pj.2, some (1 : Rat)))) hedges n,
          List.mem_append] at humem'
        rcases humem' with hA | hB
        · rw [mem_neighbors_iff] at hA
          obtain ⟨e, he, hcase⟩ := hA
          rcases hcase with ⟨h1, _⟩ | ⟨h1, _⟩
          · exact hfresh n hnExt e.1 (hwf e he).1 h1
          · exact hfresh n hnExt e.2.1 (hwf e he).2 h1
        · rw [mem_neighbors_iff] at hB
          obtain ⟨e, heZ, hcase⟩ := hB
          rw [List.mem_map] at heZ
          obtain ⟨pj, hpj, rfl⟩ := heZ
          rcases hcase with ⟨h1, _⟩ | ⟨h1, h2⟩
          · exact hfresh n hnExt pj.1 (hparPr pj.1 (List.of_mem_zip hpj).1) h1
          · exact hmem ((mem_childrenOf par ext u n).mpr (by rw [← h2, ← h1]; exact hpj))
  have hfilter2 : (ext.filter (fun n => bumpTrigger g₁ u n)).length = par.count u := by
    rw [List.filter_congr hchar]
    have hsubl : (childrenOf par ext u).Sublist ext := by
      have h1 := zip_filterMap_sublist u (par.zip ext)
      rw [List.map_snd_zip par ext (le_of_eq hlen.symm)] at h1
      exact h1
    rw [filter_mem_of_sublist (childrenOf par ext u) ext hsubl hextnd]
    unfold childrenOf
    rw [zip_filterMap_length u (par.zip ext), List.map_fst_zip par ext (le_of_eq hlen)]
  have hcount_u : ((keysOf g₁).filter (fun n => bumpTrigger g₁ u n)).length = h.toNat := by
    rw [hkeys, List.filter_append, hfilter1, List.nil_append, hfilter2, hcount u,
      if_pos humem]
    unfold hofOrig atomOf
    rw [hu]
    simp [hhc]
  have husi : isSimpleH g₁ u = false := by
    cases hb : isSimpleH g₁ u with
    | false => rfl
    | true =>
      exfalso
      have hfacts := isSimpleH_facts g₁ u (a.withHcount none) hg₁u hb
      exact hel (by simpa [Atom.withHcount] using hfacts.1)
  have hurem : u ∉ ((keysOf g₁).foldl removeStep (g₁, [])).2 := by
    rw [hrem]
    simp only [List.nil_append]
    intro hc
    have h2 := List.of_mem_filter hc
    simp [husi] at h2
  have hfinal : lookupNode ((keysOf g₁).foldl removeStep (g₁, [])).1 u
      = bumpN (some (a.withHcount none)) h.toNat := by
    rw [hcnt u, hg₁u, hcount_u]
  show (atomOf (ensureHcounts (removeNodes ((keysOf g₁).foldl removeStep (g₁, [])).1
      ((keysOf g₁).foldl removeStep (g₁, [])).2)) u).hcount = some h
  unfold atomOf
  rw [lookupNode_ensureHcounts, lookupNode_removeNodes_not_mem _ _ u hurem, hfinal]
  by_cases hz : h = 0
  · subst hz
    simp [bumpN, Atom.withHcount]
  · have htn : ¬(h.toNat = 0) := by omega
    simp only [bumpN, if_neg htn, Option.map_some']
    simp [Atom.withHcount, Int.toNat_of_nonneg hpos]

/-- A clean two-carbon molecule (a triple bond, hydrogen counts 2 and 1)
used to witness the hydrogen round-trip. -/
def molC9w : Molecule :=
  ⟨[(0, ⟨some "C", some 0, some 2, some false, none, none, none⟩),
    (1, ⟨some "C", some 0, some 1, some false, none, none, none⟩)],
   [(0, 1, some (3 : Rat))]⟩

theorem add_remove_roundtrip_witness :
    (atomOf (remove_explicit_hydrogens (add_explicit_hydrogens molC9w)) 0).hcount
      = some 2 :=
  add_remove_roundtrip molC9w 0 ⟨some "C", some 0, some 2, some false, none, none, none⟩ 2
    (by decide) (by decide) (by decide) (by decide) (by decide) (by decide) (by decide)

/-- A carbon with stored hcount 1 that already has an explicit hydrogen
neighbor in the original graph. -/
def molC9 : Molecule :=
  ⟨[(0, ⟨some "C", some 0, some 1, some false, none, none, none⟩),
    (1, ⟨some "H", some 0, some 0, some false, none, none, none⟩)],
   [(0, 1, some (1 : Rat))]⟩

/-- C9 counterexample: when the atom already has an explicit hydrogen-element
neighbor, the round-trip folds that hydrogen into the stored count — node 0
starts with hcount 1 and ends with hcount 2, so the original value is not
restored and the unrestricted claim fails. -/
theorem add_remove_roundtrip_counterexample :
    (atomOf molC9 0).hcount = some 1 ∧
    (atomOf (remove_explicit_hydrogens (add_explicit_hydrogens molC9)) 0).hcount
      = some 2 := by
  constructor
  · rfl
  · decide
